import Mathlib

set_option maxRecDepth 8000

/-!
Verification of the flag-parsing core of the `mainer` Go package (`flag.go`).

Go strings are modelled as lists of characters (`GoStr`).  The stdlib
`flag.FlagSet` machinery that `Parser.parseFlags` delegates to is embedded
faithfully (its `parseOne`/`Parse` loop), with each registered flag's
`flag.Value.Set` modelled as a function `GoStr → σ → Option σ` over the target
structure state `σ` (`none` models a coercion error; the textual detail that
Go appends to coercion error messages is not tracked).  The `SetFlagsCount`
decorator (`setupFlagsCount`) is modelled by the `counting` parameter:
when it is true, every `Set` call first bumps the per-canonical-name counter
and then delegates, exactly as the wrapped `valueSetter` does.
-/

/-- Go strings, as lists of characters. -/
abbrev GoStr : Type := List Char

/-- Build a `GoStr` from a Lean string literal. -/
def str (s : String) : GoStr := s.data

/-- `strings.Split(s, sep)` for a single-character separator: splits at every
occurrence, keeping empty parts. -/
def goSplitOn (sep : Char) : GoStr → List GoStr
  | [] => [[]]
  | c :: rest =>
    if c = sep then [] :: goSplitOn sep rest
    else
      match goSplitOn sep rest with
      | [] => [[c]]
      | p :: ps => (c :: p) :: ps

/-- Lookup in an association list modelling a Go `map` keyed by strings. -/
def assocLookup {α : Type} : List (GoStr × α) → GoStr → Option α
  | [], _ => none
  | (k', v) :: t, k => if k' = k then some v else assocLookup t k

/-- Insert/overwrite in an association list modelling a Go `map`. -/
def assocSet {α : Type} : List (GoStr × α) → GoStr → α → List (GoStr × α)
  | [], k, v => [(k, v)]
  | (k', v') :: t, k, v => if k' = k then (k, v) :: t else (k', v') :: assocSet t k v

/-- `flagsCount[k]++` on the occurrence-count map. -/
def bumpCount (m : List (GoStr × Nat)) (k : GoStr) : List (GoStr × Nat) :=
  match assocLookup m k with
  | some n => assocSet m k (n + 1)
  | none => m ++ [(k, 1)]

/-- Insert a string into a list representing a set, keeping one copy. -/
def insertUniq (l : List GoStr) (x : GoStr) : List GoStr :=
  if x ∈ l then l else l ++ [x]

/-- `sliceContains` from flag.go. -/
def sliceContains : List GoStr → GoStr → Bool
  | [], _ => false
  | ss :: t, s => if ss = s then true else sliceContains t s

/-- `strconv.ParseBool`, used by the stdlib bool flag value. -/
def goParseBool (s : GoStr) : Option Bool :=
  if s = str ("1") ∨ s = str ("t") ∨ s = str ("T") ∨
     s = str ("true") ∨ s = str ("TRUE") ∨ s = str ("True") then some true
  else if s = str ("0") ∨ s = str ("f") ∨ s = str ("F") ∨
     s = str ("false") ∨ s = str ("FALSE") ∨ s = str ("False") then some false
  else none

/-- One flag registered in the `flag.FlagSet`: its name, its `Value.Set`
acceptor acting on the target structure, and whether the value reports
`IsBoolFlag() == true`. -/
structure Binding (σ : Type) where
  name : GoStr
  set : GoStr → σ → Option σ
  isBool : Bool

/-- One struct field carrying a `flag` tag: the raw tag value and the acceptor
the registration loop wires for each of its aliases (for a slice field the
acceptor appends; for a scalar it overwrites). -/
structure FieldDef (σ : Type) where
  tag : GoStr
  set : GoStr → σ → Option σ
  isBool : Bool

/-- `fs.Lookup` / the `formal` map of the flag set. -/
def lookupFlag {σ : Type} : List (Binding σ) → GoStr → Option (Binding σ)
  | [], _ => none
  | b :: t, nm => if b.name = nm then some b else lookupFlag t nm

/-- The binding registered for alias `nm` of field `fld`. -/
def mkBinding {σ : Type} (fld : FieldDef σ) (nm : GoStr) : Binding σ :=
  ⟨nm, fld.set, fld.isBool⟩

/-- The per-field alias loop of `parseFlags` (flag.go lines 143-209): walk the
comma-separated alias list, skip empty aliases, fix the canonical name as the
first non-empty alias, record `canonLookup[nm] = canonFlag`, and register the
alias with the flag set.  Registering a name that already exists makes the
stdlib `FlagSet.Var` panic with `flag redefined: <name>`, modelled as the
`Except.error` case. -/
def regAliases {σ : Type} (fld : FieldDef σ) :
    List GoStr → Option GoStr → List (Binding σ) → List (GoStr × GoStr) →
    Except GoStr (List (Binding σ) × List (GoStr × GoStr))
  | [], _, fs, cl => .ok (fs, cl)
  | nm :: rest, canon, fs, cl =>
    if nm = [] then regAliases fld rest canon fs cl
    else
      let canonFlag := canon.getD nm
      let cl' := assocSet cl nm canonFlag
      if (lookupFlag fs nm).isSome then .error (str ("flag redefined: ") ++ nm)
      else regAliases fld rest (some canonFlag) (fs ++ [mkBinding fld nm]) cl'

/-- The field loop of `parseFlags` (flag.go lines 140-210): registration of
every field's aliases, building the flag set and the canonical-name lookup. -/
def regFields {σ : Type} :
    List (FieldDef σ) → List (Binding σ) → List (GoStr × GoStr) →
    Except GoStr (List (Binding σ) × List (GoStr × GoStr))
  | [], fs, cl => .ok (fs, cl)
  | fld :: rest, fs, cl =>
    match regAliases fld (goSplitOn ',' fld.tag) none fs cl with
    | .error m => .error m
    | .ok (fs', cl') => regFields rest fs' cl'

/-- State threaded through the stdlib `FlagSet.Parse` loop: the remaining
argument tokens (`f.args`), the target structure, the occurrence-count map of
`setupFlagsCount`, and the set of names actually set (`f.actual`). -/
structure FsState (σ : Type) where
  args : List GoStr
  strct : σ
  counts : List (GoStr × Nat)
  actual : List GoStr
  deriving DecidableEq

/-- Error outcome of the stdlib scan: `flag.ErrHelp` or an error message. -/
inductive FsErr where
  | help
  | emsg (m : GoStr)
  deriving DecidableEq

/-- Result of `parseOne`: a flag was seen, a clean stop, or an error. -/
inductive Step (σ : Type) where
  | seen (st : FsState σ)
  | stop (st : FsState σ)
  | err (st : FsState σ) (e : FsErr)
  deriving DecidableEq

/-- `canonLookup[nm]`: Go map reads return the zero value (empty string) for
missing keys. -/
def canonOf (cl : List (GoStr × GoStr)) (nm : GoStr) : GoStr :=
  (assocLookup cl nm).getD []

/-- A call of the (possibly count-wrapped) `flag.Value.Set`: when counting is
on, the `valueSetter` wrapper first increments the counter under the canonical
name of the flag and then delegates to the inner value, whose failure is the
`false` result (the counter increment is kept, as in the Go code). -/
def applySet {σ : Type} (counting : Bool) (cl : List (GoStr × GoStr))
    (b : Binding σ) (v : GoStr) (st : FsState σ) : FsState σ × Bool :=
  let counts' := if counting then bumpCount st.counts (canonOf cl b.name) else st.counts
  match b.set v st.strct with
  | some s' => ({ st with strct := s', counts := counts' }, true)
  | none => ({ st with counts := counts' }, false)

/-- `f.actual[name] = flag` after a successful set. -/
def markActual {σ : Type} (nm : GoStr) (st : FsState σ) : FsState σ :=
  { st with actual := insertUniq st.actual nm }

/-- Scan of `name` for a `=` at index 1 or later, from stdlib `parseOne`
("equals cannot be first"): tail part of the scan. -/
def splitEqAux : List Char → List Char × Option GoStr
  | [] => ([], none)
  | c :: rest =>
    if c = '=' then ([], some rest)
    else
      let p := splitEqAux rest
      (c :: p.1, p.2)

/-- Split `name` at the first `=` after position 0, returning the name part
and the value when present. -/
def splitEq : GoStr → GoStr × Option GoStr
  | [] => ([], none)
  | c :: rest =>
    let p := splitEqAux rest
    (c :: p.1, p.2)

/-- Body of the stdlib `parseOne` once the token `s` has been classified as a
flag with dashes stripped (`name0`) and the argument pointer advanced past the
token (`rest`). -/
def handleName {σ : Type} (fs : List (Binding σ)) (counting : Bool)
    (cl : List (GoStr × GoStr)) (s name0 : GoStr) (rest : List GoStr)
    (st : FsState σ) : Step σ :=
  match name0 with
  | [] => .err st (.emsg (str ("bad flag syntax: ") ++ s))
  | c0 :: _ =>
    if c0 = '-' ∨ c0 = '=' then .err st (.emsg (str ("bad flag syntax: ") ++ s))
    else
      let st1 : FsState σ := { st with args := rest }
      let p := splitEq name0
      let name := p.1
      match lookupFlag fs name with
      | none =>
        if name = str ("help") ∨ name = str ("h") then .err st1 .help
        else .err st1 (.emsg (str ("flag provided but not defined: -") ++ name))
      | some b =>
        if b.isBool then
          match p.2 with
          | some value =>
            let r := applySet counting cl b value st1
            if r.2 then .seen (markActual name r.1)
            else .err r.1 (.emsg (str ("invalid boolean value ") ++ value ++
              str (" for -") ++ name))
          | none =>
            let r := applySet counting cl b (str ("true")) st1
            if r.2 then .seen (markActual name r.1)
            else .err r.1 (.emsg (str ("invalid boolean flag ") ++ name))
        else
          match p.2 with
          | some value =>
            let r := applySet counting cl b value st1
            if r.2 then .seen (markActual name r.1)
            else .err r.1 (.emsg (str ("invalid value ") ++ value ++
              str (" for flag -") ++ name))
          | none =>
            match st1.args with
            | value :: more =>
              let st2 : FsState σ := { st1 with args := more }
              let r := applySet counting cl b value st2
              if r.2 then .seen (markActual name r.1)
              else .err r.1 (.emsg (str ("invalid value ") ++ value ++
                str (" for flag -") ++ name))
            | [] => .err st1 (.emsg (str ("flag needs an argument: -") ++ name))

/-- The stdlib `FlagSet.parseOne`: stop on a non-flag token (fewer than two
characters or no leading dash), consume a bare `--` terminator and stop,
otherwise strip one or two dashes and process the flag. -/
def parseOne {σ : Type} (fs : List (Binding σ)) (counting : Bool)
    (cl : List (GoStr × GoStr)) (st : FsState σ) : Step σ :=
  match st.args with
  | [] => .stop st
  | s :: rest =>
    match s with
    | '-' :: c1 :: srest =>
      if c1 = '-' then
        match srest with
        | [] => .stop { st with args := rest }
        | c2 :: srest2 => handleName fs counting cl s (c2 :: srest2) rest st
      else handleName fs counting cl s (c1 :: srest) rest st
    | _ => .stop st

/-- Outcome of a `FlagSet.Parse` call. -/
inductive FsOut (σ : Type) where
  | done (st : FsState σ)
  | fail (st : FsState σ) (e : FsErr)
  deriving DecidableEq

/-- Fuel-indexed loop of the stdlib `FlagSet.Parse`: iterate `parseOne` until
it stops or errors.  The fuel never runs out when it exceeds the number of
remaining tokens (each seen flag consumes at least one token). -/
def fsParseF {σ : Type} (fs : List (Binding σ)) (counting : Bool)
    (cl : List (GoStr × GoStr)) : Nat → FsState σ → FsOut σ
  | 0, st => .done st
  | n + 1, st =>
    match parseOne fs counting cl st with
    | .seen st' => fsParseF fs counting cl n st'
    | .stop st' => .done st'
    | .err st' e => .fail st' e

/-- `fs.Parse(args)`. -/
def fsParse {σ : Type} (fs : List (Binding σ)) (counting : Bool)
    (cl : List (GoStr × GoStr)) (st : FsState σ) : FsOut σ :=
  fsParseF fs counting cl (st.args.length + 1) st

/-- The flag-syntax test of the non-flag collection loop (flag.go lines
242-244): a leading dash, length at least two, and not three leading dashes. -/
def flagLike : GoStr → Bool
  | '-' :: '-' :: '-' :: _ => false
  | '-' :: _ :: _ => true
  | _ => false

/-- The inner loop over `fs.Args()` (flag.go lines 236-251): collect non-flag
tokens in order; on a bare `--` keep all subsequent tokens as non-flags and
stop the whole scan; on a flag-looking token stop collecting and return the
remaining tokens as the next `args`.  Returns (collected non-flags, new args). -/
def collectNonFlags : List GoStr → List GoStr × List GoStr
  | [] => ([], [])
  | nf :: rest =>
    if nf = str ("--") then (rest, [])
    else if flagLike nf then ([], nf :: rest)
    else
      let p := collectNonFlags rest
      (nf :: p.1, p.2)

/-- Outcome of the outer scan loop of `parseFlags`. -/
inductive ScanOut (σ : Type) where
  | ok (st : FsState σ) (nonFlags : List GoStr)
  | err (st : FsState σ) (msg : GoStr)
  deriving DecidableEq

/-- Fuel-indexed outer loop of `parseFlags` (flag.go lines 222-252): while
tokens remain, run `fs.Parse`; translate `flag.ErrHelp` into an
unrecognized-flag error for `-help` (when no `help` flag is registered and the
literal token `-help` occurs in the current argument slice) or `-h`; then
split `fs.Args()` into non-flags and the next argument slice. -/
def scanLoopF {σ : Type} (fs : List (Binding σ)) (counting : Bool)
    (cl : List (GoStr × GoStr)) : Nat → FsState σ → List GoStr → ScanOut σ
  | 0, st, nf => .ok st nf
  | n + 1, st, nf =>
    match st.args with
    | [] => .ok st nf
    | _ :: _ =>
      match fsParse fs counting cl st with
      | .fail st' .help =>
        if (lookupFlag fs (str ("help"))).isNone && sliceContains st.args (str ("-help"))
        then .err st' (str ("flag provided but not defined: -help"))
        else .err st' (str ("flag provided but not defined: -h"))
      | .fail st' (.emsg m) => .err st' m
      | .done st' =>
        let p := collectNonFlags st'.args
        scanLoopF fs counting cl n { st' with args := p.2 } (nf ++ p.1)

/-- The outer scan loop, with enough fuel (each iteration that continues
strictly shortens the argument slice). -/
def scanLoop {σ : Type} (fs : List (Binding σ)) (counting : Bool)
    (cl : List (GoStr × GoStr)) (st : FsState σ) (nf : List GoStr) : ScanOut σ :=
  scanLoopF fs counting cl (st.args.length + 1) st nf

/-- What `parseFlags` reports back to the caller's structure: the final field
values, the non-flag argument list for `SetArgs`, the canonical-name set for
`SetFlags` (`none` models the nil map delivered when nothing was set), and the
occurrence counts for `SetFlagsCount` (`none` models the nil map).  On the
`len(args) == 0` early return nothing is delivered at all. -/
structure ParseResult (σ : Type) where
  strct : σ
  nonFlags : Option (List GoStr)
  flagSet : Option (List GoStr)
  counts : Option (List (GoStr × Nat))
  deriving DecidableEq

/-- Outcome of `parseFlags`/`Parse`: success, a returned error, or a panic
(`fatal`), each carrying the state of the target structure at that point. -/
inductive POut (σ : Type) where
  | ok (r : ParseResult σ)
  | err (strct : σ) (msg : GoStr)
  | fatal (strct : σ) (msg : GoStr)
  deriving DecidableEq

/-- The `fs.Visit` pass building the `SetFlags` map: every actually-set name
contributes its canonical name (flag.go lines 258-267). -/
def flagSetOf (cl : List (GoStr × GoStr)) (actual : List GoStr) : List GoStr :=
  actual.foldl (fun acc nm => insertUniq acc (canonOf cl nm)) []

/-- `Parser.parseFlags` (flag.go lines 119-278): early return on an empty
argument vector, registration of the struct's flag tags (panicking on a
redefined alias), the interleaving scan over `args[1:]`, and delivery of
non-flags, the canonical flag set, and the occurrence counts. -/
def parseFlags {σ : Type} (fields : List (FieldDef σ)) (counting : Bool)
    (args : List GoStr) (st : σ) : POut σ :=
  match args with
  | [] => .ok { strct := st, nonFlags := none, flagSet := none, counts := none }
  | _ :: rest =>
    match regFields fields [] [] with
    | .error m => .fatal st m
    | .ok (fs, cl) =>
      match scanLoop fs counting cl { args := rest, strct := st, counts := [], actual := [] } [] with
      | .err st' m => .err st'.strct m
      | .ok st' nonFlags =>
        .ok { strct := st'.strct
            , nonFlags := some nonFlags
            , flagSet := if st'.actual = [] then none else some (flagSetOf cl st'.actual)
            , counts := if st'.counts = [] then none else some st'.counts }

/-- One field carrying an `env` tag: its variable name and its acceptor. -/
structure EnvBinding (σ : Type) where
  name : GoStr
  set : GoStr → σ → Option σ

/-- Modelled from the spec: the environment resolver (`env.Parse` of the
external github.com/caarlos0/env/v6 package, not part of this repository).
Per spec section 4.2: for each field carrying an environment-variable
annotation, the variable name is the prefix concatenated with the annotation's
value; if set in the process environment its textual value is coerced with the
same rules and assigned to the field; a malformed value fails with a coercion
error identifying the variable/field, aborting the pass. -/
def envParse {σ : Type} (envMap : GoStr → Option GoStr) (pfx : GoStr) :
    List (EnvBinding σ) → σ → σ × Option GoStr
  | [], st => (st, none)
  | eb :: rest, st =>
    match envMap (pfx ++ eb.name) with
    | none => envParse envMap pfx rest st
    | some v =>
      match eb.set v st with
      | some st' => envParse envMap pfx rest st'
      | none => (st, some (str ("env: parse error on field ") ++ eb.name))

/-- `(p.reverse.dropWhile (· = sep)).reverse`: the trailing-separator strip of
`filepath.Base`. -/
def goDropTrailingSlashes (p : GoStr) : GoStr :=
  (p.reverse.dropWhile (fun c => c = '/')).reverse

/-- The part of a path after its last slash (whole path when there is none):
the `strings.LastIndex` step of `filepath.Base`. -/
def goAfterLastSlash (p : GoStr) : GoStr :=
  (goSplitOn '/' p).getLastD []

/-- `filepath.Base` (unix separator). -/
def goBase (p : GoStr) : GoStr :=
  if p = [] then str (".")
  else
    let q := goDropTrailingSlashes p
    let r := goAfterLastSlash q
    if r = [] then str ("/") else r

/-- Backwards scan of `filepath.Ext`: stop at a path separator, return from
the last dot (inclusive) to the end. -/
def extAux : List Char → List Char → GoStr
  | [], _ => []
  | c :: rest, acc =>
    if c = '/' then []
    else if c = '.' then '.' :: acc
    else extAux rest (c :: acc)

/-- `filepath.Ext`. -/
def goExt (p : GoStr) : GoStr := extAux p.reverse []

/-- `strings.TrimSuffix`. -/
def goTrimSuffix (s sfx : GoStr) : GoStr :=
  if sfx.isSuffixOf s then s.take (s.length - sfx.length) else s

/-- ASCII uppercase of one character (the program names the claims concern are
ASCII; the full Unicode tables of `strings.ToUpper` are not modelled). -/
def goUpperChar (c : Char) : Char :=
  if 'a' ≤ c ∧ c ≤ 'z' then Char.ofNat (c.toNat - 32) else c

/-- `strings.ToUpper` (ASCII). -/
def goToUpper (s : GoStr) : GoStr := s.map goUpperChar

/-- `strings.ReplaceAll(name, "-", "_")`. -/
def goDashToUnderscore (s : GoStr) : GoStr :=
  s.map (fun c => if c = '-' then '_' else c)

/-- `prefixFromProgramName` (flag.go lines 377-384): base filename, extension
stripped when non-empty, dashes to underscores, uppercase, trailing
underscore. -/
def pfxFromProgName (name : GoStr) : GoStr :=
  let name1 := goBase name
  let ext := goExt name1
  let name2 := if ext ≠ [] then goTrimSuffix name1 ext else name1
  goToUpper (goDashToUnderscore name2) ++ str ("_")

/-- The `Parser` configuration struct. -/
structure GoParser where
  envVars : Bool
  envPfx : GoStr

/-- The prefix selection of `parseEnvVars` (flag.go lines 365-375): the
explicit `EnvPrefix` if non-empty, else derived from `args[0]` when the
argument vector is non-empty; the sentinel `-` yields the empty prefix. -/
def effectivePfx (p : GoParser) (args : List GoStr) : GoStr :=
  let pfx0 := p.envPfx
  let pfx1 :=
    if pfx0 = [] then
      match args with
      | [] => pfx0
      | a0 :: _ => pfxFromProgName a0
    else pfx0
  if pfx1 = str ("-") then [] else pfx1

/-- `Parser.parseEnvVars`. -/
def parseEnvVars {σ : Type} (p : GoParser) (envMap : GoStr → Option GoStr)
    (ebs : List (EnvBinding σ)) (args : List GoStr) (st : σ) : σ × Option GoStr :=
  envParse envMap (effectivePfx p args) ebs st

/-- `Parser.Parse` (flag.go lines 82-99): the optional environment pre-pass,
then flag parsing, then the `Validate` hook (modelled as an optional
error-returning function on the final structure). -/
def goParse {σ : Type} (p : GoParser) (envMap : GoStr → Option GoStr)
    (ebs : List (EnvBinding σ)) (fields : List (FieldDef σ)) (counting : Bool)
    (validate : σ → Option GoStr) (args : List GoStr) (st : σ) : POut σ :=
  let envRes := if p.envVars then parseEnvVars p envMap ebs args st else (st, none)
  match envRes.2 with
  | some m => .err envRes.1 m
  | none =>
    match parseFlags fields counting args envRes.1 with
    | .fatal s m => .fatal s m
    | .err s m => .err s m
    | .ok r =>
      match validate r.strct with
      | some m => .err r.strct m
      | none => .ok r

/-- A scalar string field: its flag value stores the argument verbatim and
never fails (stdlib `StringVar`). -/
def stringField {σ : Type} (tag : GoStr) (put : GoStr → σ → σ) : FieldDef σ :=
  { tag := tag, set := fun v st => some (put v st), isBool := false }

/-- A scalar bool field: parses with `strconv.ParseBool`, reports
`IsBoolFlag`. -/
def boolField {σ : Type} (tag : GoStr) (put : Bool → σ → σ) : FieldDef σ :=
  { tag := tag, set := fun v st => (goParseBool v).map (fun b => put b st), isBool := true }

/-- A `[]string` field: the registered `fs.Func` acceptor appends each value
(string element coercion never fails). -/
def stringSliceField {σ : Type} (tag : GoStr) (app : GoStr → σ → σ) : FieldDef σ :=
  { tag := tag, set := fun v st => some (app v st), isBool := false }

/-! ## Basic lemmas about the helper operations -/

theorem lookupFlag_name {σ : Type} {fs : List (Binding σ)} {nm : GoStr} {b : Binding σ}
    (h : lookupFlag fs nm = some b) : b.name = nm := by
  induction fs with
  | nil => simp [lookupFlag] at h
  | cons b' t ih =>
    by_cases hb : b'.name = nm
    · simp [lookupFlag, hb] at h
      rw [← h]
      exact hb
    · simp [lookupFlag, hb] at h
      exact ih h

theorem lookupFlag_mem {σ : Type} {fs : List (Binding σ)} {nm : GoStr} {b : Binding σ}
    (h : lookupFlag fs nm = some b) : b ∈ fs := by
  induction fs with
  | nil => simp [lookupFlag] at h
  | cons b' t ih =>
    by_cases hb : b'.name = nm
    · simp [lookupFlag, hb] at h
      simp [← h]
    · simp [lookupFlag, hb] at h
      exact List.mem_cons_of_mem _ (ih h)

theorem insertUniq_mem {l : List GoStr} {x y : GoStr} :
    y ∈ insertUniq l x ↔ y ∈ l ∨ y = x := by
  unfold insertUniq
  by_cases h : x ∈ l
  · simp [h]
    intro hy
    exact hy ▸ h
  · simp [h]

theorem assocLookup_set {α : Type} (m : List (GoStr × α)) (k k' : GoStr) (v : α) :
    assocLookup (assocSet m k v) k' = if k = k' then some v else assocLookup m k' := by
  induction m with
  | nil =>
    by_cases hk : k = k' <;> simp [assocSet, assocLookup, hk]
  | cons p t ih =>
    obtain ⟨pk, pv⟩ := p
    by_cases hp : pk = k
    · subst hp
      by_cases hk : pk = k' <;> simp [assocSet, assocLookup, hk]
    · by_cases hk2 : pk = k'
      · subst hk2
        have hkp : ¬k = pk := fun h => hp h.symm
        simp [assocSet, assocLookup, hp, hkp]
      · simp [assocSet, assocLookup, hp, hk2, ih]

theorem assocSet_mem {α : Type} {m : List (GoStr × α)} {k : GoStr} {v : α}
    {x : GoStr × α} (h : x ∈ assocSet m k v) : x = (k, v) ∨ x ∈ m := by
  induction m with
  | nil => simp [assocSet] at h; simp [h]
  | cons p t ih =>
    by_cases hp : p.1 = k
    · simp [assocSet, hp] at h
      rcases h with h | h
      · exact Or.inl h
      · exact Or.inr (List.mem_cons_of_mem _ h)
    · simp [assocSet, hp] at h
      rcases h with h | h
      · exact Or.inr (by simp [h])
      · rcases ih h with h' | h'
        · exact Or.inl h'
        · exact Or.inr (List.mem_cons_of_mem _ h')

theorem bumpCount_mem {m : List (GoStr × Nat)} {k : GoStr} {x : GoStr × Nat}
    (h : x ∈ bumpCount m k) : x.1 = k ∨ x ∈ m := by
  unfold bumpCount at h
  cases hl : assocLookup m k with
  | none =>
    rw [hl] at h
    simp at h
    rcases h with h | h
    · exact Or.inr h
    · exact Or.inl (by simp [h])
  | some n =>
    rw [hl] at h
    rcases assocSet_mem h with h' | h'
    · exact Or.inl (by simp [h'])
    · exact Or.inr h'

theorem assocLookup_bumpCount (m : List (GoStr × Nat)) (k : GoStr) :
    assocLookup (bumpCount m k) k = some ((assocLookup m k).getD 0 + 1) := by
  unfold bumpCount
  cases hl : assocLookup m k with
  | none =>
    simp
    induction m with
    | nil => simp [assocLookup]
    | cons p t ih =>
      by_cases hp : p.1 = k
      · simp [assocLookup, hp] at hl
      · cases p with
        | mk pk pv =>
          simp at hp
          simp [assocLookup, hp] at hl ⊢
          exact ih hl
  | some n =>
    simp [assocLookup_set]

theorem splitEqAux_noEq {cs : List Char} (h : '=' ∉ cs) : splitEqAux cs = (cs, none) := by
  induction cs with
  | nil => simp [splitEqAux]
  | cons c t ih =>
    simp at h
    simp [splitEqAux, Ne.symm h.1, ih h.2]

theorem splitEq_noEq {c : Char} {cs : List Char} (h : '=' ∉ cs) :
    splitEq (c :: cs) = (c :: cs, none) := by
  simp [splitEq, splitEqAux_noEq h]

/-! ## Shape lemmas for `applySet`, `markActual`, `handleName`, `parseOne` -/

@[simp] theorem markActual_args {σ : Type} (nm : GoStr) (st : FsState σ) :
    (markActual nm st).args = st.args := rfl

@[simp] theorem markActual_strct {σ : Type} (nm : GoStr) (st : FsState σ) :
    (markActual nm st).strct = st.strct := rfl

@[simp] theorem markActual_counts {σ : Type} (nm : GoStr) (st : FsState σ) :
    (markActual nm st).counts = st.counts := rfl

@[simp] theorem markActual_actual {σ : Type} (nm : GoStr) (st : FsState σ) :
    (markActual nm st).actual = insertUniq st.actual nm := rfl

@[simp] theorem applySet_fst_args {σ : Type} (counting : Bool) (cl : List (GoStr × GoStr))
    (b : Binding σ) (v : GoStr) (st : FsState σ) :
    ((applySet counting cl b v st).1).args = st.args := by
  unfold applySet
  cases b.set v st.strct <;> rfl

@[simp] theorem applySet_fst_actual {σ : Type} (counting : Bool) (cl : List (GoStr × GoStr))
    (b : Binding σ) (v : GoStr) (st : FsState σ) :
    ((applySet counting cl b v st).1).actual = st.actual := by
  unfold applySet
  cases b.set v st.strct <;> rfl

theorem applySet_false_strct {σ : Type} {counting : Bool} {cl : List (GoStr × GoStr)}
    {b : Binding σ} {v : GoStr} {st : FsState σ}
    (h : (applySet counting cl b v st).2 = false) :
    ((applySet counting cl b v st).1).strct = st.strct := by
  unfold applySet at h ⊢
  cases hb : b.set v st.strct <;> simp [hb] at h ⊢

theorem handleName_seen_args_length {σ : Type} {fs : List (Binding σ)} {counting : Bool}
    {cl : List (GoStr × GoStr)} {s name0 : GoStr} {rest : List GoStr}
    {st st' : FsState σ}
    (h : handleName fs counting cl s name0 rest st = .seen st') :
    st'.args.length ≤ rest.length := by
  unfold handleName at h
  split at h
  · simp at h
  · dsimp only at h
    split at h
    · simp at h
    · split at h
      · split at h <;> simp at h
      · split at h
        · split at h
          · split at h
            · injection h with h2
              subst h2
              simp only [markActual_args, applySet_fst_args]
              omega
            · simp at h
          · split at h
            · injection h with h2
              subst h2
              simp only [markActual_args, applySet_fst_args]
              omega
            · simp at h
        · split at h
          · split at h
            · injection h with h2
              subst h2
              simp only [markActual_args, applySet_fst_args]
              omega
            · simp at h
          · split at h
            · split at h
              · injection h with h2
                subst h2
                simp only [markActual_args, applySet_fst_args, List.length_cons]
                omega
              · simp at h
            · simp at h

theorem handleName_err_args_length {σ : Type} {fs : List (Binding σ)} {counting : Bool}
    {cl : List (GoStr × GoStr)} {s name0 : GoStr} {rest : List GoStr}
    {st st' : FsState σ} {e : FsErr}
    (hst : st.args = s :: rest)
    (h : handleName fs counting cl s name0 rest st = .err st' e) :
    st'.args.length ≤ st.args.length := by
  unfold handleName at h
  split at h
  · injection h with h2 _
    subst h2
    simp
  · dsimp only at h
    split at h
    · injection h with h2 _
      subst h2
      simp
    · split at h
      · split at h <;>
          (injection h with h2 _
           subst h2
           simp [hst])
      · split at h
        · split at h
          · split at h
            · simp at h
            · injection h with h2 _
              subst h2
              simp only [applySet_fst_args, hst, List.length_cons]
              omega
          · split at h
            · simp at h
            · injection h with h2 _
              subst h2
              simp only [applySet_fst_args, hst, List.length_cons]
              omega
        · split at h
          · split at h
            · simp at h
            · injection h with h2 _
              subst h2
              simp only [applySet_fst_args, hst, List.length_cons]
              omega
          · split at h
            · split at h
              · simp at h
              · injection h with h2 _
                subst h2
                simp only [applySet_fst_args, hst, List.length_cons]
                omega
            · injection h with h2 _
              subst h2
              simp [hst]

theorem handleName_err_strct {σ : Type} {fs : List (Binding σ)} {counting : Bool}
    {cl : List (GoStr × GoStr)} {s name0 : GoStr} {rest : List GoStr}
    {st st' : FsState σ} {e : FsErr}
    (h : handleName fs counting cl s name0 rest st = .err st' e) :
    st'.strct = st.strct := by
  unfold handleName at h
  split at h
  · injection h with h2 _
    subst h2
    rfl
  · dsimp only at h
    split at h
    · injection h with h2 _
      subst h2
      rfl
    · split at h
      · split at h <;>
          (injection h with h2 _
           subst h2
           rfl)
      · split at h
        · split at h
          · split at h
            · simp at h
            · rename_i hcond
              injection h with h2 _
              subst h2
              exact applySet_false_strct (by simpa using hcond)
          · split at h
            · simp at h
            · rename_i hcond
              injection h with h2 _
              subst h2
              exact applySet_false_strct (by simpa using hcond)
        · split at h
          · split at h
            · simp at h
            · rename_i hcond
              injection h with h2 _
              subst h2
              exact applySet_false_strct (by simpa using hcond)
          · split at h
            · split at h
              · simp at h
              · rename_i hcond
                injection h with h2 _
                subst h2
                exact applySet_false_strct (by simpa using hcond)
            · injection h with h2 _
              subst h2
              rfl

theorem handleName_ne_stop {σ : Type} {fs : List (Binding σ)} {counting : Bool}
    {cl : List (GoStr × GoStr)} {s name0 : GoStr} {rest : List GoStr}
    {st st' : FsState σ}
    (h : handleName fs counting cl s name0 rest st = .stop st') : False := by
  unfold handleName at h
  split at h
  · simp at h
  · dsimp only at h
    split at h
    · simp at h
    · split at h
      · split at h <;> simp at h
      · split at h
        · split at h
          · split at h <;> simp at h
          · split at h <;> simp at h
        · split at h
          · split at h <;> simp at h
          · split at h
            · split at h <;> simp at h
            · simp at h

theorem flagLike_cons_ne {c : Char} (hc : ¬c = '-') (t : List Char) :
    flagLike (c :: t) = false := by
  unfold flagLike
  split <;> simp_all

theorem flagLike_false_of_not_dash2 {s : GoStr}
    (hs : ∀ (c1 : Char) (srest : List Char), ¬s = '-' :: c1 :: srest) :
    flagLike s = false := by
  match s with
  | [] => rfl
  | [c] =>
    unfold flagLike
    split <;> simp_all
  | c :: c2 :: t =>
    have hc : ¬c = '-' := by
      intro hcc
      exact hs c2 t (by rw [hcc])
    exact flagLike_cons_ne hc _

theorem parseOne_seen_length {σ : Type} {fs : List (Binding σ)} {counting : Bool}
    {cl : List (GoStr × GoStr)} {st st' : FsState σ}
    (h : parseOne fs counting cl st = .seen st') :
    st'.args.length < st.args.length := by
  unfold parseOne at h
  split at h
  · simp at h
  · rename_i s rest hargs
    split at h
    · split at h
      · split at h
        · simp at h
        · have := handleName_seen_args_length h
          rw [hargs]
          simp only [List.length_cons]
          omega
      · have := handleName_seen_args_length h
        rw [hargs]
        simp only [List.length_cons]
        omega
    · simp at h

theorem parseOne_err_length {σ : Type} {fs : List (Binding σ)} {counting : Bool}
    {cl : List (GoStr × GoStr)} {st st' : FsState σ} {e : FsErr}
    (h : parseOne fs counting cl st = .err st' e) :
    st'.args.length ≤ st.args.length := by
  unfold parseOne at h
  split at h
  · simp at h
  · rename_i s rest hargs
    split at h
    · split at h
      · split at h
        · simp at h
        · exact handleName_err_args_length hargs h
      · exact handleName_err_args_length hargs h
    · simp at h

theorem parseOne_err_strct {σ : Type} {fs : List (Binding σ)} {counting : Bool}
    {cl : List (GoStr × GoStr)} {st st' : FsState σ} {e : FsErr}
    (h : parseOne fs counting cl st = .err st' e) :
    st'.strct = st.strct := by
  unfold parseOne at h
  split at h
  · simp at h
  · split at h
    · split at h
      · split at h
        · simp at h
        · exact handleName_err_strct h
      · exact handleName_err_strct h
    · simp at h

theorem parseOne_stop_cases {σ : Type} {fs : List (Binding σ)} {counting : Bool}
    {cl : List (GoStr × GoStr)} {st st' : FsState σ}
    (h : parseOne fs counting cl st = .stop st') :
    st'.args.length < st.args.length ∨
      (st' = st ∧ (st.args = [] ∨ ∃ a t, st.args = a :: t ∧ flagLike a = false)) := by
  unfold parseOne at h
  split at h
  · rename_i hargs
    injection h with h2
    exact Or.inr ⟨h2.symm, Or.inl hargs⟩
  · rename_i s rest hargs
    split at h
    · rename_i c1 srest
      split at h
      · split at h
        · injection h with h2
          subst h2
          rw [hargs]
          simp
        · exact absurd h handleName_ne_stop
      · exact absurd h handleName_ne_stop
    · rename_i hnodash
      injection h with h2
      subst h2
      refine Or.inr ⟨rfl, Or.inr ⟨s, rest, hargs, ?_⟩⟩
      exact flagLike_false_of_not_dash2 (fun c1 srest hs => hnodash c1 srest hs)

theorem parseOne_stop_length {σ : Type} {fs : List (Binding σ)} {counting : Bool}
    {cl : List (GoStr × GoStr)} {st st' : FsState σ}
    (h : parseOne fs counting cl st = .stop st') :
    st'.args.length ≤ st.args.length := by
  rcases parseOne_stop_cases h with h1 | ⟨h1, _⟩
  · omega
  · rw [h1]

/-! ## Fuel adequacy for `fsParse` and `scanLoop` -/

/-- The state carried by a `FlagSet.Parse` outcome. -/
def FsOut.state {σ : Type} : FsOut σ → FsState σ
  | .done st => st
  | .fail st _ => st

theorem fsParseF_congr {σ : Type} (fs : List (Binding σ)) (counting : Bool)
    (cl : List (GoStr × GoStr)) :
    ∀ (n m : Nat) (st : FsState σ), st.args.length < n → st.args.length < m →
      fsParseF fs counting cl n st = fsParseF fs counting cl m st := by
  intro n
  induction n with
  | zero =>
    intro m st h1 _
    exact absurd h1 (by omega)
  | succ n ih =>
    intro m st h1 h2
    cases m with
    | zero => exact absurd h2 (by omega)
    | succ m' =>
      simp only [fsParseF]
      cases hp : parseOne fs counting cl st with
      | seen st' =>
        have hl := parseOne_seen_length hp
        exact ih m' st' (by omega) (by omega)
      | stop st' => rfl
      | err st' e => rfl

theorem fsParse_eq {σ : Type} (fs : List (Binding σ)) (counting : Bool)
    (cl : List (GoStr × GoStr)) (st : FsState σ) :
    fsParse fs counting cl st =
      match parseOne fs counting cl st with
      | .seen st' => fsParse fs counting cl st'
      | .stop st' => .done st'
      | .err st' e => .fail st' e := by
  unfold fsParse
  simp only [fsParseF]
  cases hp : parseOne fs counting cl st with
  | seen st' =>
    have hl := parseOne_seen_length hp
    exact fsParseF_congr fs counting cl st.args.length (st'.args.length + 1) st'
      (by omega) (by omega)
  | stop st' => rfl
  | err st' e => rfl

theorem fsParseF_state_length {σ : Type} (fs : List (Binding σ)) (counting : Bool)
    (cl : List (GoStr × GoStr)) :
    ∀ (n : Nat) (st : FsState σ),
      ((fsParseF fs counting cl n st).state).args.length ≤ st.args.length := by
  intro n
  induction n with
  | zero => intro st; simp [fsParseF, FsOut.state]
  | succ n ih =>
    intro st
    simp only [fsParseF]
    cases hp : parseOne fs counting cl st with
    | seen st' =>
      have ha := parseOne_seen_length hp
      have hb := ih st'
      dsimp only
      omega
    | stop st' =>
      have ha := parseOne_stop_length hp
      dsimp only [FsOut.state]
      omega
    | err st' e =>
      have ha := parseOne_err_length hp
      dsimp only [FsOut.state]
      omega

theorem fsParse_done_cases {σ : Type} {fs : List (Binding σ)} {counting : Bool}
    {cl : List (GoStr × GoStr)} {st st' : FsState σ}
    (h : fsParse fs counting cl st = .done st') :
    st'.args.length < st.args.length ∨
      (st' = st ∧ (st.args = [] ∨ ∃ a t, st.args = a :: t ∧ flagLike a = false)) := by
  suffices hs : ∀ (n : Nat) (st0 : FsState σ), st0.args.length < n →
      fsParseF fs counting cl n st0 = .done st' →
      st'.args.length < st0.args.length ∨
        (st' = st0 ∧ (st0.args = [] ∨ ∃ a t, st0.args = a :: t ∧ flagLike a = false)) by
    exact hs (st.args.length + 1) st (by omega) h
  intro n
  induction n with
  | zero =>
    intro st0 h1 _
    exact absurd h1 (by omega)
  | succ n ih =>
    intro st0 h1 h2
    simp only [fsParseF] at h2
    cases hp : parseOne fs counting cl st0 with
    | seen st1 =>
      rw [hp] at h2
      have hl := parseOne_seen_length hp
      rcases ih st1 (by omega) h2 with h3 | ⟨h3, _⟩
      · left; omega
      · left; rw [h3]; omega
    | stop st1 =>
      rw [hp] at h2
      injection h2 with h3
      subst h3
      exact parseOne_stop_cases hp
    | err st1 e =>
      rw [hp] at h2
      simp at h2

theorem collectNonFlags_length (l : List GoStr) :
    (collectNonFlags l).2.length ≤ l.length := by
  induction l with
  | nil => simp [collectNonFlags]
  | cons nf rest ih =>
    unfold collectNonFlags
    by_cases h1 : nf = str ("--")
    · simp [h1]
    · by_cases h2 : flagLike nf
      · simp [h1, h2]
      · simp [h1, h2]
        exact le_trans ih (Nat.le_succ _)

theorem collectNonFlags_progress {a : GoStr} (t : List GoStr) (ha : flagLike a = false) :
    (collectNonFlags (a :: t)).2.length ≤ t.length := by
  unfold collectNonFlags
  by_cases h1 : a = str ("--")
  · simp [h1]
  · simp [h1, ha]
    exact collectNonFlags_length t

theorem scan_next_length {σ : Type} {fs : List (Binding σ)} {counting : Bool}
    {cl : List (GoStr × GoStr)} {st st' : FsState σ}
    (hne : st.args ≠ []) (h : fsParse fs counting cl st = .done st') :
    ((collectNonFlags st'.args).2).length < st.args.length := by
  rcases fsParse_done_cases h with hlt | ⟨heq, hcase⟩
  · exact lt_of_le_of_lt (collectNonFlags_length st'.args) hlt
  · subst heq
    rcases hcase with hnil | ⟨a, t, hat, hfl⟩
    · exact absurd hnil hne
    · rw [hat]
      have h2 := collectNonFlags_progress (a := a) t hfl
      simp only [List.length_cons]
      omega

theorem scanLoopF_congr {σ : Type} (fs : List (Binding σ)) (counting : Bool)
    (cl : List (GoStr × GoStr)) :
    ∀ (n m : Nat) (st : FsState σ) (nf : List GoStr),
      st.args.length < n → st.args.length < m →
      scanLoopF fs counting cl n st nf = scanLoopF fs counting cl m st nf := by
  intro n
  induction n with
  | zero =>
    intro m st nf h1 _
    exact absurd h1 (by omega)
  | succ n ih =>
    intro m st nf h1 h2
    cases m with
    | zero => exact absurd h2 (by omega)
    | succ m' =>
      simp only [scanLoopF]
      rcases hst : st.args with _ | ⟨a, t⟩
      · rfl
      · cases hp : fsParse fs counting cl st with
        | fail st' e => cases e <;> rfl
        | done st' =>
          have hlen : ((collectNonFlags st'.args).2).length < st.args.length :=
            scan_next_length (by rw [hst]; simp) hp
          exact ih m' _ _ (by dsimp only; omega) (by dsimp only; omega)

theorem scanLoop_nil {σ : Type} (fs : List (Binding σ)) (counting : Bool)
    (cl : List (GoStr × GoStr)) {st : FsState σ} (nf : List GoStr)
    (h : st.args = []) :
    scanLoop fs counting cl st nf = .ok st nf := by
  unfold scanLoop
  simp only [scanLoopF, h]

theorem scanLoop_done {σ : Type} (fs : List (Binding σ)) (counting : Bool)
    (cl : List (GoStr × GoStr)) {st st' : FsState σ} (nf : List GoStr)
    (hne : st.args ≠ []) (hp : fsParse fs counting cl st = .done st') :
    scanLoop fs counting cl st nf =
      scanLoop fs counting cl { st' with args := (collectNonFlags st'.args).2 }
        (nf ++ (collectNonFlags st'.args).1) := by
  obtain ⟨a, t, hat⟩ := List.exists_cons_of_ne_nil hne
  have hlen : ((collectNonFlags st'.args).2).length < st.args.length :=
    scan_next_length hne hp
  unfold scanLoop
  simp only [scanLoopF, hat, hp]
  exact scanLoopF_congr fs counting cl (a :: t).length
    (((collectNonFlags st'.args).2).length + 1)
    { st' with args := (collectNonFlags st'.args).2 }
    (nf ++ (collectNonFlags st'.args).1)
    (by dsimp only; rw [hat] at hlen; omega) (by dsimp only; omega)

theorem scanLoop_emsg {σ : Type} (fs : List (Binding σ)) (counting : Bool)
    (cl : List (GoStr × GoStr)) {st st' : FsState σ} (nf : List GoStr) {m : GoStr}
    (hne : st.args ≠ []) (hp : fsParse fs counting cl st = .fail st' (.emsg m)) :
    scanLoop fs counting cl st nf = .err st' m := by
  obtain ⟨a, t, hat⟩ := List.exists_cons_of_ne_nil hne
  unfold scanLoop
  simp only [scanLoopF, hat, hp]

theorem scanLoop_help {σ : Type} (fs : List (Binding σ)) (counting : Bool)
    (cl : List (GoStr × GoStr)) {st st' : FsState σ} (nf : List GoStr)
    (hne : st.args ≠ []) (hp : fsParse fs counting cl st = .fail st' .help) :
    scanLoop fs counting cl st nf =
      (if (lookupFlag fs (str ("help"))).isNone && sliceContains st.args (str ("-help"))
       then .err st' (str ("flag provided but not defined: -help"))
       else .err st' (str ("flag provided but not defined: -h"))) := by
  obtain ⟨a, t, hat⟩ := List.exists_cons_of_ne_nil hne
  unfold scanLoop
  simp only [scanLoopF, hat, hp]

/-! ## Characterization of `parseOne` on a recognized flag token -/

theorem parseOne_to_handleName {σ : Type} {fs : List (Binding σ)} {counting : Bool}
    {cl : List (GoStr × GoStr)} {ds : GoStr}
    (hds : ds = str ("-") ∨ ds = str ("--")) {c : Char} {cs : GoStr} (hc1 : c ≠ '-')
    {tail : List GoStr} {st : FsState σ} (hargs : st.args = (ds ++ c :: cs) :: tail) :
    parseOne fs counting cl st = handleName fs counting cl (ds ++ c :: cs) (c :: cs) tail st := by
  rcases hds with hds | hds <;> subst hds
  · have h1 : (str ("-") : GoStr) ++ c :: cs = '-' :: c :: cs := rfl
    rw [h1] at hargs ⊢
    unfold parseOne
    rw [hargs]
    simp [hc1]
  · have h1 : (str ("--") : GoStr) ++ c :: cs = '-' :: '-' :: c :: cs := rfl
    rw [h1] at hargs ⊢
    unfold parseOne
    rw [hargs]
    simp

theorem handleName_val {σ : Type} {fs : List (Binding σ)} {counting : Bool}
    {cl : List (GoStr × GoStr)} {s : GoStr} {c : Char} {cs : GoStr}
    (hc1 : c ≠ '-') (hc2 : c ≠ '=') (hcs : '=' ∉ cs)
    {b : Binding σ} (hb : lookupFlag fs (c :: cs) = some b) (hbool : b.isBool = false)
    {v : GoStr} {rest : List GoStr} {st : FsState σ}
    {s' : σ} (hset : b.set v st.strct = some s') :
    handleName fs counting cl s (c :: cs) (v :: rest) st = .seen
      { args := rest, strct := s',
        counts := if counting then bumpCount st.counts (canonOf cl (c :: cs)) else st.counts,
        actual := insertUniq st.actual (c :: cs) } := by
  have hname := lookupFlag_name hb
  have hsp : splitEq (c :: cs) = (c :: cs, none) := splitEq_noEq hcs
  unfold handleName
  simp only [hsp, hb, hbool, applySet, markActual, hc1, hc2, or_self, if_neg, not_or,
    not_false_eq_true, and_self, if_false, Bool.false_eq_true]
  rw [hname]
  simp [hset]

theorem handleName_bool {σ : Type} {fs : List (Binding σ)} {counting : Bool}
    {cl : List (GoStr × GoStr)} {s : GoStr} {c : Char} {cs : GoStr}
    (hc1 : c ≠ '-') (hc2 : c ≠ '=') (hcs : '=' ∉ cs)
    {b : Binding σ} (hb : lookupFlag fs (c :: cs) = some b) (hbool : b.isBool = true)
    {rest : List GoStr} {st : FsState σ}
    {s' : σ} (hset : b.set (str ("true")) st.strct = some s') :
    handleName fs counting cl s (c :: cs) rest st = .seen
      { args := rest, strct := s',
        counts := if counting then bumpCount st.counts (canonOf cl (c :: cs)) else st.counts,
        actual := insertUniq st.actual (c :: cs) } := by
  have hname := lookupFlag_name hb
  have hsp : splitEq (c :: cs) = (c :: cs, none) := splitEq_noEq hcs
  unfold handleName
  simp only [hsp, hb, hbool, applySet, markActual, hc1, hc2, or_self, if_neg, not_or,
    not_false_eq_true, and_self, if_false, Bool.false_eq_true]
  rw [hname]
  simp [hset]

theorem parseOne_flag_val {σ : Type} (fs : List (Binding σ)) (counting : Bool)
    (cl : List (GoStr × GoStr)) (ds : GoStr)
    (hds : ds = str ("-") ∨ ds = str ("--")) {c : Char} (cs : GoStr)
    (hc1 : c ≠ '-') (hc2 : c ≠ '=') (hcs : '=' ∉ cs)
    {b : Binding σ} (hb : lookupFlag fs (c :: cs) = some b) (hbool : b.isBool = false)
    {v : GoStr} (rest : List GoStr) (st : FsState σ)
    (hargs : st.args = (ds ++ c :: cs) :: v :: rest)
    (s' : σ) (hset : b.set v st.strct = some s') :
    parseOne fs counting cl st = .seen
      { args := rest, strct := s',
        counts := if counting then bumpCount st.counts (canonOf cl (c :: cs)) else st.counts,
        actual := insertUniq st.actual (c :: cs) } :=
  (parseOne_to_handleName hds hc1 hargs).trans (handleName_val hc1 hc2 hcs hb hbool hset)

theorem parseOne_flag_bool {σ : Type} (fs : List (Binding σ)) (counting : Bool)
    (cl : List (GoStr × GoStr)) (ds : GoStr)
    (hds : ds = str ("-") ∨ ds = str ("--")) {c : Char} (cs : GoStr)
    (hc1 : c ≠ '-') (hc2 : c ≠ '=') (hcs : '=' ∉ cs)
    {b : Binding σ} (hb : lookupFlag fs (c :: cs) = some b) (hbool : b.isBool = true)
    (rest : List GoStr) (st : FsState σ)
    (hargs : st.args = (ds ++ c :: cs) :: rest)
    (s' : σ) (hset : b.set (str ("true")) st.strct = some s') :
    parseOne fs counting cl st = .seen
      { args := rest, strct := s',
        counts := if counting then bumpCount st.counts (canonOf cl (c :: cs)) else st.counts,
        actual := insertUniq st.actual (c :: cs) } :=
  (parseOne_to_handleName hds hc1 hargs).trans (handleName_bool hc1 hc2 hcs hb hbool hset)

/-! ## Pure runs of recognized flags -/

/-- `PureRun fs args names`: the token list `args` is a contiguous run of
recognized flags with (well-formed) values — each occurrence is either a bool
flag token or a non-bool flag token followed by its value token, the flag name
is registered in `fs`, and the value is accepted by the flag's acceptor from
any structure state.  `names` lists the flag names used, in order and with
multiplicity. -/
inductive PureRun {σ : Type} (fs : List (Binding σ)) : List GoStr → List GoStr → Prop
  | nil : PureRun fs [] []
  | boolFlag (ds : GoStr) (c : Char) (cs : GoStr) (b : Binding σ)
      (rest names : List GoStr) :
      (ds = str ("-") ∨ ds = str ("--")) → c ≠ '-' → c ≠ '=' → '=' ∉ cs →
      lookupFlag fs (c :: cs) = some b → b.isBool = true →
      (∀ s, (b.set (str ("true")) s).isSome) →
      PureRun fs rest names →
      PureRun fs ((ds ++ c :: cs) :: rest) ((c :: cs) :: names)
  | valFlag (ds : GoStr) (c : Char) (cs v : GoStr) (b : Binding σ)
      (rest names : List GoStr) :
      (ds = str ("-") ∨ ds = str ("--")) → c ≠ '-' → c ≠ '=' → '=' ∉ cs →
      lookupFlag fs (c :: cs) = some b → b.isBool = false →
      (∀ s, (b.set v s).isSome) →
      PureRun fs rest names →
      PureRun fs ((ds ++ c :: cs) :: v :: rest) ((c :: cs) :: names)

theorem pureRun_split {σ : Type} {fs : List (Binding σ)} (counting : Bool)
    (cl : List (GoStr × GoStr)) {args names : List GoStr}
    (h : PureRun fs args names) :
    ∀ (tail : List GoStr) (st : FsState σ), st.args = args ++ tail →
      ∃ stMid : FsState σ,
        fsParse fs counting cl { st with args := args } = .done stMid ∧
        stMid.args = [] ∧
        (∀ x, x ∈ stMid.actual ↔ x ∈ st.actual ∨ x ∈ names) ∧
        fsParse fs counting cl st = fsParse fs counting cl { stMid with args := tail } := by
  induction h with
  | nil =>
    intro tail st hargs
    refine ⟨{ st with args := [] }, rfl, rfl, by simp, ?_⟩
    simp only [List.nil_append] at hargs
    have hst : ({ st with args := tail } : FsState σ) = st := by
      cases st
      simp_all
    rw [hst]
  | boolFlag ds c cs b rest names hds hc1 hc2 hcs hb hbool hsome _ ih =>
    intro tail st hargs
    obtain ⟨s', hset⟩ := Option.isSome_iff_exists.mp (hsome st.strct)
    have hstep := parseOne_flag_bool fs counting cl ds hds cs hc1 hc2 hcs hb hbool
      (rest ++ tail) st (by rw [hargs]; rfl) s' hset
    have hstep0 := parseOne_flag_bool fs counting cl ds hds cs hc1 hc2 hcs hb hbool
      rest { st with args := (ds ++ c :: cs) :: rest } rfl s' hset
    obtain ⟨stMid, hm1, hm2, hm3, hm4⟩ := ih tail
      { args := rest ++ tail, strct := s',
        counts := if counting then bumpCount st.counts (canonOf cl (c :: cs)) else st.counts,
        actual := insertUniq st.actual (c :: cs) } rfl
    refine ⟨stMid, ?_, hm2, ?_, ?_⟩
    · rw [fsParse_eq, hstep0]
      exact hm1
    · intro x
      rw [hm3 x]
      dsimp only
      rw [insertUniq_mem]
      simp only [List.mem_cons]
      tauto
    · rw [fsParse_eq, hstep]
      exact hm4
  | valFlag ds c cs v b rest names hds hc1 hc2 hcs hb hbool hsome _ ih =>
    intro tail st hargs
    obtain ⟨s', hset⟩ := Option.isSome_iff_exists.mp (hsome st.strct)
    have hstep := parseOne_flag_val fs counting cl ds hds cs hc1 hc2 hcs hb hbool
      (rest ++ tail) st (by rw [hargs]; rfl) s' hset
    have hstep0 := parseOne_flag_val fs counting cl ds hds cs hc1 hc2 hcs hb hbool
      rest { st with args := (ds ++ c :: cs) :: v :: rest } rfl s' hset
    obtain ⟨stMid, hm1, hm2, hm3, hm4⟩ := ih tail
      { args := rest ++ tail, strct := s',
        counts := if counting then bumpCount st.counts (canonOf cl (c :: cs)) else st.counts,
        actual := insertUniq st.actual (c :: cs) } rfl
    refine ⟨stMid, ?_, hm2, ?_, ?_⟩
    · rw [fsParse_eq, hstep0]
      exact hm1
    · intro x
      rw [hm3 x]
      dsimp only
      rw [insertUniq_mem]
      simp only [List.mem_cons]
      tauto
    · rw [fsParse_eq, hstep]
      exact hm4

/-! ## Registration invariants: canonical names -/

/-- Well-formedness of a registration state: every registered flag name maps
through `canonLookup` to a canonical name that maps to itself, and every
`canonLookup` key is a registered flag name. -/
def CanonOK {σ : Type} (fs : List (Binding σ)) (cl : List (GoStr × GoStr)) : Prop :=
  (∀ b ∈ fs, ∃ k, assocLookup cl b.name = some k ∧ assocLookup cl k = some k) ∧
  (∀ k v, assocLookup cl k = some v → ∃ b ∈ fs, b.name = k)

theorem lookupFlag_eq_none_iff {σ : Type} {fs : List (Binding σ)} {nm : GoStr} :
    lookupFlag fs nm = none ↔ ∀ b ∈ fs, b.name ≠ nm := by
  induction fs with
  | nil => simp [lookupFlag]
  | cons b t ih =>
    by_cases hb : b.name = nm
    · simp [lookupFlag, hb]
    · simp [lookupFlag, hb, ih]

theorem canonOK_insert {σ : Type} {fs : List (Binding σ)} {cl : List (GoStr × GoStr)}
    (hok : CanonOK fs cl) {fld : FieldDef σ} {nm cf : GoStr}
    (hfresh : lookupFlag fs nm = none)
    (hcf : cf = nm ∨ assocLookup cl cf = some cf) :
    CanonOK (fs ++ [mkBinding fld nm]) (assocSet cl nm cf) := by
  have hnames : ∀ b ∈ fs, b.name ≠ nm := lookupFlag_eq_none_iff.mp hfresh
  have hkeyne : ∀ k v, assocLookup cl k = some v → k ≠ nm := by
    intro k v hv
    obtain ⟨b, hbmem, hbname⟩ := hok.2 k v hv
    rw [← hbname]
    exact hnames b hbmem
  have hcfne : cf = nm ∨ cf ≠ nm := by
    rcases hcf with hcf | hcf
    · exact Or.inl hcf
    · exact Or.inr (hkeyne cf cf hcf)
  constructor
  · intro b hb
    rcases List.mem_append.mp hb with hb | hb
    · obtain ⟨k, hk1, hk2⟩ := hok.1 b hb
      refine ⟨k, ?_, ?_⟩
      · rw [assocLookup_set]
        rw [if_neg (fun he => hnames b hb he.symm)]
        exact hk1
      · rw [assocLookup_set]
        rw [if_neg (fun he => hkeyne k k hk2 he.symm)]
        exact hk2
    · simp at hb
      subst hb
      rcases hcf with hcf | hcf
      · subst hcf
        refine ⟨cf, ?_, ?_⟩ <;> simp [assocLookup_set, mkBinding]
      · refine ⟨cf, ?_, ?_⟩
        · simp [assocLookup_set, mkBinding]
        · rw [assocLookup_set]
          rw [if_neg (fun he => hkeyne cf cf hcf he.symm)]
          exact hcf
  · intro k v hv
    rw [assocLookup_set] at hv
    by_cases hk : nm = k
    · subst hk
      exact ⟨mkBinding fld nm, by simp, rfl⟩
    · rw [if_neg hk] at hv
      obtain ⟨b, hbmem, hbname⟩ := hok.2 k v hv
      exact ⟨b, List.mem_append.mpr (Or.inl hbmem), hbname⟩

theorem regAliases_canonOK {σ : Type} {fld : FieldDef σ} :
    ∀ (names : List GoStr) (canon : Option GoStr) (fs : List (Binding σ))
      (cl : List (GoStr × GoStr)) {fs' : List (Binding σ)} {cl' : List (GoStr × GoStr)},
      CanonOK fs cl →
      (∀ cf, canon = some cf → assocLookup cl cf = some cf) →
      regAliases fld names canon fs cl = .ok (fs', cl') →
      CanonOK fs' cl' := by
  intro names
  induction names with
  | nil =>
    intro canon fs cl fs' cl' hok hcan hreg
    simp only [regAliases] at hreg
    injection hreg with hreg
    injection hreg with h1 h2
    subst h1; subst h2
    exact hok
  | cons nm rest ih =>
    intro canon fs cl fs' cl' hok hcan hreg
    unfold regAliases at hreg
    by_cases hnm : nm = []
    · rw [if_pos hnm] at hreg
      exact ih _ _ _ hok hcan hreg
    · rw [if_neg hnm] at hreg
      dsimp only at hreg
      by_cases hdup : (lookupFlag fs nm).isSome
      · rw [if_pos hdup] at hreg
        simp at hreg
      · rw [if_neg hdup] at hreg
        have hfresh : lookupFlag fs nm = none := Option.not_isSome_iff_eq_none.mp hdup
        have hcf : canon.getD nm = nm ∨ assocLookup cl (canon.getD nm) = some (canon.getD nm) := by
          cases canon with
          | none => exact Or.inl rfl
          | some c => exact Or.inr (hcan c rfl)
        refine ih _ _ _ (canonOK_insert hok hfresh hcf) ?_ hreg
        intro cf hcf2
        injection hcf2 with hcf2
        subst hcf2
        rw [assocLookup_set]
        rcases hcf with hcf | hcf
        · simp [hcf]
        · have hkeyne : canon.getD nm ≠ nm := by
            intro he
            obtain ⟨b, hbmem, hbname⟩ := hok.2 _ _ hcf
            exact lookupFlag_eq_none_iff.mp hfresh b hbmem (by rw [hbname, he])
          rw [if_neg (fun he => hkeyne he.symm)]
          exact hcf

theorem regFields_canonOK {σ : Type} :
    ∀ (fields : List (FieldDef σ)) (fs : List (Binding σ)) (cl : List (GoStr × GoStr))
      {fs' : List (Binding σ)} {cl' : List (GoStr × GoStr)},
      CanonOK fs cl → regFields fields fs cl = .ok (fs', cl') → CanonOK fs' cl' := by
  intro fields
  induction fields with
  | nil =>
    intro fs cl fs' cl' hok hreg
    simp only [regFields] at hreg
    injection hreg with hreg
    injection hreg with h1 h2
    subst h1; subst h2
    exact hok
  | cons fld rest ih =>
    intro fs cl fs' cl' hok hreg
    unfold regFields at hreg
    cases hra : regAliases fld (goSplitOn ',' fld.tag) none fs cl with
    | error m =>
      rw [hra] at hreg
      simp at hreg
    | ok p =>
      rw [hra] at hreg
      exact ih _ _ (regAliases_canonOK _ _ _ _ hok (by simp) hra) hreg

theorem canonOK_empty {σ : Type} : CanonOK ([] : List (Binding σ)) [] := by
  constructor
  · intro b hb
    simp at hb
  · intro k v hv
    simp [assocLookup] at hv

/-! ## Occurrence tracking: actual names are registered, count keys canonical -/

/-- Invariant of the scan state: every actually-set name is registered, and
every key of the occurrence-count map is a canonical name (maps to itself in
`canonLookup`). -/
def Tracked {σ : Type} (fs : List (Binding σ)) (cl : List (GoStr × GoStr))
    (st : FsState σ) : Prop :=
  (∀ nm ∈ st.actual, ∃ b ∈ fs, b.name = nm) ∧
  (∀ kv ∈ st.counts, assocLookup cl kv.1 = some kv.1)

theorem canonOf_self {σ : Type} {fs : List (Binding σ)} {cl : List (GoStr × GoStr)}
    (hok : CanonOK fs cl) {b : Binding σ} (hb : b ∈ fs) :
    assocLookup cl (canonOf cl b.name) = some (canonOf cl b.name) := by
  obtain ⟨k, hk1, hk2⟩ := hok.1 b hb
  unfold canonOf
  rw [hk1]
  exact hk2

theorem tracked_args {σ : Type} {fs : List (Binding σ)} {cl : List (GoStr × GoStr)}
    {st : FsState σ} (ht : Tracked fs cl st) (a : List GoStr) :
    Tracked fs cl { st with args := a } := ht

theorem tracked_applySet {σ : Type} {fs : List (Binding σ)} {cl : List (GoStr × GoStr)}
    (hok : CanonOK fs cl) {b : Binding σ} (hbmem : b ∈ fs)
    (counting : Bool) (v : GoStr) {st : FsState σ} (ht : Tracked fs cl st) :
    Tracked fs cl (applySet counting cl b v st).1 := by
  have hcounts : ∀ kv ∈ (if counting then bumpCount st.counts (canonOf cl b.name)
      else st.counts), assocLookup cl kv.1 = some kv.1 := by
    cases counting with
    | false => exact ht.2
    | true =>
      intro kv hkv
      simp only [if_true] at hkv
      rcases bumpCount_mem hkv with h1 | h1
      · rw [h1]
        exact canonOf_self hok hbmem
      · exact ht.2 kv h1
  unfold applySet
  cases b.set v st.strct with
  | some s' => exact ⟨ht.1, hcounts⟩
  | none => exact ⟨ht.1, hcounts⟩

theorem tracked_markActual {σ : Type} {fs : List (Binding σ)} {cl : List (GoStr × GoStr)}
    {nm : GoStr} (hnm : ∃ b ∈ fs, b.name = nm) {st : FsState σ}
    (ht : Tracked fs cl st) : Tracked fs cl (markActual nm st) := by
  refine ⟨?_, ht.2⟩
  intro x hx
  simp only [markActual_actual] at hx
  rcases insertUniq_mem.mp hx with hx | hx
  · exact ht.1 x hx
  · subst hx
    exact hnm

/-- The state carried by a `parseOne` outcome. -/
def Step.state {σ : Type} : Step σ → FsState σ
  | .seen st => st
  | .stop st => st
  | .err st _ => st

theorem handleName_tracked {σ : Type} {fs : List (Binding σ)} {counting : Bool}
    {cl : List (GoStr × GoStr)} {s name0 : GoStr} {rest : List GoStr}
    {st : FsState σ} (hok : CanonOK fs cl) (ht : Tracked fs cl st) :
    Tracked fs cl (handleName fs counting cl s name0 rest st).state := by
  unfold handleName
  split
  · exact ht
  · dsimp only
    split
    · exact ht
    · split
      · split <;> exact ht
      · rename_i b hb
        have hbmem := lookupFlag_mem hb
        have hbname := lookupFlag_name hb
        have hnm0 : ∃ b' ∈ fs, b'.name = b.name := ⟨b, hbmem, rfl⟩
        have hnm := hbname ▸ hnm0
        split
        · split
          · split
            · exact tracked_markActual hnm (tracked_applySet hok hbmem _ _ (tracked_args ht _))
            · exact tracked_applySet hok hbmem _ _ (tracked_args ht _)
          · split
            · exact tracked_markActual hnm (tracked_applySet hok hbmem _ _ (tracked_args ht _))
            · exact tracked_applySet hok hbmem _ _ (tracked_args ht _)
        · split
          · split
            · exact tracked_markActual hnm (tracked_applySet hok hbmem _ _ (tracked_args ht _))
            · exact tracked_applySet hok hbmem _ _ (tracked_args ht _)
          · split
            · split
              · exact tracked_markActual hnm (tracked_applySet hok hbmem _ _ (tracked_args ht _))
              · exact tracked_applySet hok hbmem _ _ (tracked_args ht _)
            · exact ht

theorem parseOne_tracked {σ : Type} {fs : List (Binding σ)} (counting : Bool)
    {cl : List (GoStr × GoStr)} {st : FsState σ}
    (hok : CanonOK fs cl) (ht : Tracked fs cl st) :
    Tracked fs cl (parseOne fs counting cl st).state := by
  unfold parseOne
  split
  · exact ht
  · split
    · split
      · split
        · exact ht
        · exact handleName_tracked hok ht
      · exact handleName_tracked hok ht
    · exact ht

theorem fsParseF_tracked {σ : Type} {fs : List (Binding σ)} (counting : Bool)
    {cl : List (GoStr × GoStr)} (hok : CanonOK fs cl) :
    ∀ (n : Nat) {st : FsState σ}, Tracked fs cl st →
      Tracked fs cl (fsParseF fs counting cl n st).state := by
  intro n
  induction n with
  | zero => intro st ht; exact ht
  | succ n ih =>
    intro st ht
    simp only [fsParseF]
    cases hp : parseOne fs counting cl st with
    | seen st' =>
      have := parseOne_tracked counting hok ht
      rw [hp] at this
      exact ih this
    | stop st' =>
      have := parseOne_tracked counting hok ht
      rw [hp] at this
      exact this
    | err st' e =>
      have := parseOne_tracked counting hok ht
      rw [hp] at this
      exact this

/-- The state carried by a scan-loop outcome. -/
def ScanOut.state {σ : Type} : ScanOut σ → FsState σ
  | .ok st _ => st
  | .err st _ => st

theorem scanLoopF_tracked {σ : Type} {fs : List (Binding σ)} (counting : Bool)
    {cl : List (GoStr × GoStr)} (hok : CanonOK fs cl) :
    ∀ (n : Nat) {st : FsState σ} (nf : List GoStr), Tracked fs cl st →
      Tracked fs cl (scanLoopF fs counting cl n st nf).state := by
  intro n
  induction n with
  | zero => intro st nf ht; exact ht
  | succ n ih =>
    intro st nf ht
    simp only [scanLoopF]
    rcases hst : st.args with _ | ⟨a, t⟩
    · exact ht
    · have hfp := fsParseF_tracked counting hok (st.args.length + 1) ht
      cases hp : fsParse fs counting cl st with
      | fail st' e =>
        unfold fsParse at hp
        rw [hp] at hfp
        dsimp only [FsOut.state] at hfp
        cases e with
        | help =>
          dsimp only
          split <;> exact hfp
        | emsg m =>
          dsimp only
          exact hfp
      | done st' =>
        unfold fsParse at hp
        rw [hp] at hfp
        dsimp only [FsOut.state] at hfp
        dsimp only
        exact ih _ (tracked_args hfp _)

theorem scanLoop_tracked {σ : Type} {fs : List (Binding σ)} (counting : Bool)
    {cl : List (GoStr × GoStr)} (hok : CanonOK fs cl) {st : FsState σ}
    (nf : List GoStr) (ht : Tracked fs cl st) :
    Tracked fs cl (scanLoop fs counting cl st nf).state :=
  scanLoopF_tracked counting hok _ nf ht

theorem flagSetOf_go {cl : List (GoStr × GoStr)} :
    ∀ (actual acc : List GoStr) (x : GoStr),
      (x ∈ actual.foldl (fun acc nm => insertUniq acc (canonOf cl nm)) acc ↔
        x ∈ acc ∨ ∃ nm ∈ actual, canonOf cl nm = x) := by
  intro actual
  induction actual with
  | nil => simp
  | cons nm rest ih =>
    intro acc x
    simp only [List.foldl_cons]
    rw [ih]
    rw [insertUniq_mem]
    simp only [List.mem_cons]
    constructor
    · rintro ((h | h) | ⟨nm', hnm', hc⟩)
      · exact Or.inl h
      · exact Or.inr ⟨nm, Or.inl rfl, h.symm⟩
      · exact Or.inr ⟨nm', Or.inr hnm', hc⟩
    · rintro (h | ⟨nm', (hnm' | hnm'), hc⟩)
      · exact Or.inl (Or.inl h)
      · subst hnm'
        exact Or.inl (Or.inr hc.symm)
      · exact Or.inr ⟨nm', hnm', hc⟩

theorem flagSetOf_mem {cl : List (GoStr × GoStr)} {actual : List GoStr} {x : GoStr} :
    x ∈ flagSetOf cl actual ↔ ∃ nm ∈ actual, canonOf cl nm = x := by
  unfold flagSetOf
  rw [flagSetOf_go]
  simp

/-! ## Concrete target structures used by the claims -/

/-- Target with one string field tagged `i`. -/
structure C1St where
  i : GoStr
  deriving DecidableEq

def c1Fields : List (FieldDef C1St) :=
  [stringField (str ("i")) (fun v st => { st with i := v })]

/-- Target with one bool field tagged `x` (no `h`/`help` binding). -/
structure C6St where
  x : Bool
  deriving DecidableEq

def c6Fields : List (FieldDef C6St) :=
  [boolField (str ("x")) (fun v st => { st with x := v })]

def c6fs : List (Binding C6St) :=
  match regFields c6Fields [] [] with
  | .ok p => p.1
  | .error _ => []

def c6cl : List (GoStr × GoStr) :=
  match regFields c6Fields [] [] with
  | .ok p => p.2
  | .error _ => []

/-- Target with a scalar string field aliased `s,string` and a repeatable
(`[]string`) field aliased `t,tee`. -/
structure C4St where
  s : GoStr
  t : List GoStr
  deriving DecidableEq

def c4Fields : List (FieldDef C4St) :=
  [ stringField (str ("s,string")) (fun v st => { st with s := v })
  , stringSliceField (str ("t,tee")) (fun v st => { st with t := st.t ++ [v] }) ]

def c4fs : List (Binding C4St) :=
  match regFields c4Fields [] [] with
  | .ok p => p.1
  | .error _ => []

def c4cl : List (GoStr × GoStr) :=
  match regFields c4Fields [] [] with
  | .ok p => p.2
  | .error _ => []

theorem c4reg : regFields c4Fields [] [] = .ok (c4fs, c4cl) := rfl

theorem c6reg : regFields c6Fields [] [] = .ok (c6fs, c6cl) := rfl

theorem sliceContains_iff {l : List GoStr} {s : GoStr} :
    sliceContains l s = true ↔ s ∈ l := by
  induction l with
  | nil => simp [sliceContains]
  | cons x t ih =>
    by_cases hx : x = s
    · simp [sliceContains, hx]
    · have h1 : sliceContains (x :: t) s = sliceContains t s := by
        simp [sliceContains, hx]
      rw [h1, ih]
      constructor
      · exact fun h => List.mem_cons_of_mem _ h
      · intro h
        rcases List.mem_cons.mp h with h | h
        · exact absurd h.symm hx
        · exact h

/-- C1, evaluation at the failing input.  With a flag `i` bound and the
argument vector `["prog", "--", "-i", "2"]`, the terminator is consumed by the
stdlib scan, the outer loop re-enters flag parsing, and `-i 2` is applied as a
flag: the field receives `"2"`, the positional list delivered via SetArgs is
empty, and the flag set records `i` — the tokens after `--` do not appear in
the positional list. -/
theorem c1_terminator_reentry_eval :
    parseFlags c1Fields false
        [str ("prog"), str ("--"), str ("-i"), str ("2")] { i := [] } =
      .ok { strct := { i := str ("2") }, nonFlags := some [],
            flagSet := some [str ("i")], counts := none } ∧
    ¬ (parseFlags c1Fields false
        [str ("prog"), str ("--"), str ("-i"), str ("2")] { i := [] } =
      .ok { strct := { i := [] }, nonFlags := some [str ("-i"), str ("2")],
            flagSet := none, counts := none }) := by
  constructor
  · rfl
  · decide

/-- C9: with environment variables disabled, `Parse` is a pure function of the
argument vector and the structure's initial field values — the result does not
depend on the process environment nor on the configured prefix. -/
theorem c9_envoff_deterministic {σ : Type} (pfx1 pfx2 : GoStr)
    (env1 env2 : GoStr → Option GoStr) (ebs : List (EnvBinding σ))
    (fields : List (FieldDef σ)) (counting : Bool) (validate : σ → Option GoStr)
    (args : List GoStr) (st : σ) :
    goParse { envVars := false, envPfx := pfx1 } env1 ebs fields counting validate args st =
      goParse { envVars := false, envPfx := pfx2 } env2 ebs fields counting validate args st := rfl

theorem append_underscore_ne_dash (X : GoStr) : X ++ str ("_") ≠ str ("-") := by
  intro h
  cases X with
  | nil => simp [str] at h
  | cons c cs =>
    have hlen := congrArg List.length h
    simp [str] at hlen

theorem pfxFromProgName_ne_dash (a0 : GoStr) : pfxFromProgName a0 ≠ str ("-") :=
  append_underscore_ne_dash _

/-- C8: the effective environment-variable prefix.  With an empty `EnvPrefix`
and a non-empty argument vector the prefix is derived from the program name
(base filename, extension stripped, dashes to underscores, upper-cased, with
an underscore appended); the sentinel `-` yields the empty prefix; any other
explicit value is used as-is. -/
theorem c8_env_pfx_rule (b : Bool) (pfx a0 : GoStr) (args rest : List GoStr) :
    (effectivePfx { envVars := b, envPfx := [] } (a0 :: rest) = pfxFromProgName a0) ∧
    (effectivePfx { envVars := b, envPfx := str ("-") } args = []) ∧
    (pfx ≠ [] → pfx ≠ str ("-") → effectivePfx { envVars := b, envPfx := pfx } args = pfx) := by
  refine ⟨?_, ?_, ?_⟩
  · unfold effectivePfx
    simp [pfxFromProgName_ne_dash a0]
  · unfold effectivePfx
    simp [str]
  · intro h1 h2
    unfold effectivePfx
    simp [h1, h2]

/-- Witness for c8_env_pfx_rule at concrete inputs. -/
theorem c8_env_pfx_rule_witness :
    effectivePfx { envVars := true, envPfx := [] }
        [str ("/usr/bin/my-app.exe"), str ("x")] = str ("MY_APP_") ∧
    effectivePfx { envVars := true, envPfx := str ("-") } [str ("prog")] = [] ∧
    effectivePfx { envVars := true, envPfx := str ("PF_") } [str ("prog")] = str ("PF_") := by
  refine ⟨?_, ?_, ?_⟩
  · rw [(c8_env_pfx_rule true [] (str ("/usr/bin/my-app.exe"))
      [str ("/usr/bin/my-app.exe"), str ("x")] [str ("x")]).1]
    decide
  · exact (c8_env_pfx_rule true [] (str ("prog")) [str ("prog")] []).2.1
  · exact (c8_env_pfx_rule true (str ("PF_")) (str ("prog")) [str ("prog")] []).2.2
      (by decide) (by decide)

/-! ## Assembling `parseFlags` results -/

theorem parseFlags_step {σ : Type} {fields : List (FieldDef σ)} {counting : Bool}
    {fs : List (Binding σ)} {cl : List (GoStr × GoStr)}
    (hreg : regFields fields [] [] = .ok (fs, cl)) (a0 : GoStr) (rest : List GoStr) (st : σ) :
    parseFlags fields counting (a0 :: rest) st =
      match scanLoop fs counting cl { args := rest, strct := st, counts := [], actual := [] } [] with
      | .err st' m => .err st'.strct m
      | .ok st' nonFlags =>
        .ok { strct := st'.strct, nonFlags := some nonFlags,
              flagSet := if st'.actual = [] then none else some (flagSetOf cl st'.actual),
              counts := if st'.counts = [] then none else some st'.counts } := by
  unfold parseFlags
  rw [hreg]

theorem parseFlags_of_run {σ : Type} {fields : List (FieldDef σ)} {counting : Bool}
    {fs : List (Binding σ)} {cl : List (GoStr × GoStr)}
    (hreg : regFields fields [] [] = .ok (fs, cl))
    {rest : List GoStr} {st0 : σ} {stMid : FsState σ}
    (hrun : fsParse fs counting cl
      { args := rest, strct := st0, counts := [], actual := [] } = .done stMid)
    (hmid : stMid.args = []) (a0 : GoStr) :
    parseFlags fields counting (a0 :: rest) st0 =
      .ok { strct := stMid.strct, nonFlags := some [],
            flagSet := if stMid.actual = [] then none else some (flagSetOf cl stMid.actual),
            counts := if stMid.counts = [] then none else some stMid.counts } := by
  rw [parseFlags_step hreg]
  by_cases hrest : rest = []
  · subst hrest
    have h0 : fsParse fs counting cl { args := [], strct := st0, counts := [], actual := [] } =
        .done { args := [], strct := st0, counts := [], actual := [] } := rfl
    rw [h0] at hrun
    injection hrun with hrun
    subst hrun
    rw [scanLoop_nil fs counting cl [] rfl]
  · rw [scanLoop_done fs counting cl [] (by simpa using hrest) hrun]
    rw [hmid]
    have hc : collectNonFlags ([] : List GoStr) = ([], []) := rfl
    rw [hc]
    dsimp only
    rw [scanLoop_nil fs counting cl ([] ++ []) rfl]
    rfl

def c6All : List GoStr := [str ("prog")]

/-- C6 (amended): a help-style flag with no binding is reported as an
unrecognized-flag error (no help output is produced — the scan only returns an
error value); the reported name is `-help` when no `help` flag is registered
and the literal token `-help` occurs in the argument slice being scanned, and
`-h` otherwise. -/
theorem c6_help_reporting (tail : List GoStr) (st0 : C6St) :
    (parseFlags c6Fields false (str ("prog") :: str ("-help") :: tail) st0 =
      .err st0 (str ("flag provided but not defined: -help"))) ∧
    (str ("-help") ∉ tail →
      parseFlags c6Fields false (str ("prog") :: str ("-h") :: tail) st0 =
        .err st0 (str ("flag provided but not defined: -h"))) := by
  constructor
  · have hstep : parseOne c6fs false c6cl
        { args := str ("-help") :: tail, strct := st0, counts := [], actual := [] } =
        .err { args := tail, strct := st0, counts := [], actual := [] } .help := rfl
    have hfp : fsParse c6fs false c6cl
        { args := str ("-help") :: tail, strct := st0, counts := [], actual := [] } =
        .fail { args := tail, strct := st0, counts := [], actual := [] } .help := by
      rw [fsParse_eq, hstep]
    have hcond : ((lookupFlag c6fs (str ("help"))).isNone &&
        sliceContains (str ("-help") :: tail) (str ("-help"))) = true := by
      have h1 : (lookupFlag c6fs (str ("help"))).isNone = true := rfl
      have h2 : sliceContains (str ("-help") :: tail) (str ("-help")) = true := by
        simp [sliceContains]
      rw [h1, h2]
      rfl
    rw [parseFlags_step c6reg]
    rw [scanLoop_help c6fs false c6cl [] (by simp) hfp]
    rw [if_pos hcond]
  · intro hnot
    have hstep : parseOne c6fs false c6cl
        { args := str ("-h") :: tail, strct := st0, counts := [], actual := [] } =
        .err { args := tail, strct := st0, counts := [], actual := [] } .help := rfl
    have hfp : fsParse c6fs false c6cl
        { args := str ("-h") :: tail, strct := st0, counts := [], actual := [] } =
        .fail { args := tail, strct := st0, counts := [], actual := [] } .help := by
      rw [fsParse_eq, hstep]
    have hcond : ((lookupFlag c6fs (str ("help"))).isNone &&
        sliceContains (str ("-h") :: tail) (str ("-help"))) = false := by
      have h2 : sliceContains (str ("-h") :: tail) (str ("-help")) = false := by
        rw [← Bool.not_eq_true]
        rw [sliceContains_iff]
        simp only [List.mem_cons]
        rintro (h | h)
        · exact absurd h (by decide)
        · exact hnot h
      rw [h2]
      rfl
    rw [parseFlags_step c6reg]
    rw [scanLoop_help c6fs false c6cl [] (by simp) hfp]
    rw [if_neg (by rw [hcond]; simp)]

/-- Witness for c6_help_reporting at a concrete input. -/
theorem c6_help_reporting_witness :
    parseFlags c6Fields false [str ("prog"), str ("-help")] { x := false } =
      .err { x := false } (str ("flag provided but not defined: -help")) ∧
    parseFlags c6Fields false [str ("prog"), str ("-h")] { x := false } =
      .err { x := false } (str ("flag provided but not defined: -h")) :=
  ⟨(c6_help_reporting [] { x := false }).1,
   (c6_help_reporting [] { x := false }).2 (by decide)⟩

/-- C6 counterexample: supplying `--help` (a help-style flag spelled with two
dashes, flag name `help`) yields the error naming `-h`, although no token of
the argument vector is `-h` — the error does not name the flag that was
actually supplied. -/
theorem c6_counterexample :
    parseFlags c6Fields false [str ("prog"), str ("--help")] { x := false } =
      .err { x := false } (str ("flag provided but not defined: -h")) ∧
    sliceContains [str ("prog"), str ("--help")] (str ("-h")) = false ∧
    str ("--help") ≠ str ("-h") := by
  refine ⟨rfl, by decide, by decide⟩

/-! ## Environment overlay (C5) -/

/-- Target with two string fields, flag-tagged `addr`/`db` and env-tagged
`ADDR`/`DB`. -/
structure C5St where
  addr : GoStr
  db : GoStr
  deriving DecidableEq

def c5Fields : List (FieldDef C5St) :=
  [ stringField (str ("addr")) (fun v st => { st with addr := v })
  , stringField (str ("db")) (fun v st => { st with db := v }) ]

def c5EnvBindings : List (EnvBinding C5St) :=
  [ ⟨str ("ADDR"), fun v st => some { st with addr := v }⟩
  , ⟨str ("DB"), fun v st => some { st with db := v }⟩ ]

/-- A process environment carrying `ADDR` and `DB`. -/
def c5Env (ev dv : GoStr) : GoStr → Option GoStr := fun k =>
  if k = str ("ADDR") then some ev
  else if k = str ("DB") then some dv
  else none

def c5fs : List (Binding C5St) :=
  match regFields c5Fields [] [] with
  | .ok p => p.1
  | .error _ => []

def c5cl : List (GoStr × GoStr) :=
  match regFields c5Fields [] [] with
  | .ok p => p.2
  | .error _ => []

theorem c5reg : regFields c5Fields [] [] = .ok (c5fs, c5cl) := rfl

/-- C5: with environment variables enabled, a scalar field supplied both via
its environment variable (`ADDR = ev`) and via its command-line flag
(`-addr fv`) ends up holding the flag value `fv` — environment resolution runs
fully before flag parsing, so the flag write lands last; a field supplied only
via the environment (`DB = dv`) keeps its environment value but contributes
neither to the SetFlags set nor to the SetFlagsCount map, which report exactly
the command-line occurrence of `addr`. -/
theorem c5_env_then_flags (ev dv fv : GoStr) (st0 : C5St) :
    goParse { envVars := true, envPfx := str ("-") } (c5Env ev dv) c5EnvBindings
        c5Fields true (fun _ => none) [str ("prog"), str ("-addr"), fv] st0 =
      .ok { strct := { addr := fv, db := dv }, nonFlags := some [],
            flagSet := some [str ("addr")],
            counts := some [(str ("addr"), 1)] } := rfl

/-! ## Duplicate aliases (C7) -/

theorem goSplitOn_no_sep {sep : Char} : ∀ {x : GoStr}, sep ∉ x → goSplitOn sep x = [x] := by
  intro x
  induction x with
  | nil => intro _; rfl
  | cons c t ih =>
    intro h
    simp only [List.mem_cons] at h
    push_neg at h
    unfold goSplitOn
    rw [if_neg (fun he => h.1 he.symm)]
    rw [ih h.2]

theorem goSplitOn_append_sep {sep : Char} : ∀ {x : GoStr} (y : GoStr), sep ∉ x →
    goSplitOn sep (x ++ sep :: y) = x :: goSplitOn sep y := by
  intro x
  induction x with
  | nil =>
    intro y _
    rw [List.nil_append]
    simp only [goSplitOn]
    simp
  | cons c t ih =>
    intro y h
    simp only [List.mem_cons] at h
    push_neg at h
    rw [List.cons_append]
    simp only [goSplitOn]
    rw [if_neg (fun he => h.1 he.symm)]
    rw [ih y h.2]

theorem parseFlags_fatal {σ : Type} {fields : List (FieldDef σ)} {counting : Bool}
    {m : GoStr} (h : regFields fields [] [] = .error m)
    (a0 : GoStr) (rest : List GoStr) (st : σ) :
    parseFlags fields counting (a0 :: rest) st = .fatal st m := by
  unfold parseFlags
  rw [h]

/-- C7: a duplicate alias is a bind-time panic.  (i) Whenever registration
fails, `Parse` on any non-empty argument vector aborts with that panic, before
any argument token is consumed and with the target structure unmodified.
(ii) The same (comma-free, non-empty) alias on two distinct fields makes
registration fail with `flag redefined: <alias>`.  (iii) So does the same
alias listed twice within one field's tag. -/
theorem c7_duplicate_alias_panics {σ : Type} :
    (∀ (fields : List (FieldDef σ)) (counting : Bool) (m : GoStr)
       (pfx : GoStr) (envMap : GoStr → Option GoStr) (ebs : List (EnvBinding σ))
       (validate : σ → Option GoStr) (a0 : GoStr) (rest : List GoStr) (st : σ),
       regFields fields [] [] = .error m →
       goParse { envVars := false, envPfx := pfx } envMap ebs fields counting validate
         (a0 :: rest) st = .fatal st m) ∧
    (∀ (x : GoStr) (fld1 fld2 : FieldDef σ), x ≠ [] → ',' ∉ x →
       fld1.tag = x → fld2.tag = x →
       regFields [fld1, fld2] [] [] = .error (str ("flag redefined: ") ++ x)) ∧
    (∀ (x : GoStr) (fld : FieldDef σ), x ≠ [] → ',' ∉ x →
       fld.tag = x ++ ',' :: x →
       regFields [fld] [] [] = .error (str ("flag redefined: ") ++ x)) := by
  refine ⟨?_, ?_, ?_⟩
  · intro fields counting m pfx envMap ebs validate a0 rest st hreg
    unfold goParse
    dsimp only
    rw [parseFlags_fatal hreg]
    simp
  · intro x fld1 fld2 hx1 hx2 ht1 ht2
    unfold regFields
    rw [ht1, goSplitOn_no_sep hx2]
    unfold regAliases
    rw [if_neg hx1]
    dsimp only
    have hl0 : (lookupFlag ([] : List (Binding σ)) x).isSome = false := rfl
    rw [hl0]
    simp only [Bool.false_eq_true, if_false]
    unfold regAliases
    unfold regFields
    rw [ht2, goSplitOn_no_sep hx2]
    unfold regAliases
    rw [if_neg hx1]
    dsimp only
    have hl1 : (lookupFlag ([] ++ [mkBinding fld1 x]) x).isSome = true := by
      simp [lookupFlag, mkBinding]
    rw [hl1]
    simp
  · intro x fld hx1 hx2 ht
    unfold regFields
    rw [ht, goSplitOn_append_sep x hx2, goSplitOn_no_sep hx2]
    unfold regAliases
    rw [if_neg hx1]
    dsimp only
    have hl0 : (lookupFlag ([] : List (Binding σ)) x).isSome = false := rfl
    rw [hl0]
    simp only [Bool.false_eq_true, if_false]
    unfold regAliases
    rw [if_neg hx1]
    dsimp only
    have hl1 : (lookupFlag ([] ++ [mkBinding fld x]) x).isSome = true := by
      simp [lookupFlag, mkBinding]
    rw [hl1]
    simp

/-- Witness for c7_duplicate_alias_panics: two fields both tagged `x`; with
args `["prog", "-x"]` Parse panics with `flag redefined: x` and the structure
keeps its initial value. -/
theorem c7_duplicate_alias_panics_witness :
    goParse { envVars := false, envPfx := [] } (fun _ => none) []
        [ stringField (str ("x")) (fun v (st : C1St) => { st with i := v })
        , stringField (str ("x")) (fun v (st : C1St) => { st with i := v }) ]
        false (fun _ => none) [str ("prog"), str ("-x")] ({ i := str ("init") } : C1St) =
      .fatal ({ i := str ("init") } : C1St) (str ("flag redefined: ") ++ str ("x")) :=
  c7_duplicate_alias_panics.1 _ false _ [] (fun _ => none) [] (fun _ => none)
    (str ("prog")) [str ("-x")] ({ i := str ("init") } : C1St)
    (c7_duplicate_alias_panics.2.1 (str ("x"))
      (stringField (str ("x")) (fun v (st : C1St) => { st with i := v }))
      (stringField (str ("x")) (fun v (st : C1St) => { st with i := v }))
      (by decide) (by decide) rfl rfl)

/-! ## Alias registration characterization (C2) -/

theorem lookupFlag_append_none {σ : Type} {fs0 : List (Binding σ)} {b : Binding σ}
    {nm : GoStr} (h0 : lookupFlag fs0 nm = none) (hb : b.name ≠ nm) :
    lookupFlag (fs0 ++ [b]) nm = none := by
  rw [lookupFlag_eq_none_iff] at h0 ⊢
  intro b' hb'
  rcases List.mem_append.mp hb' with h | h
  · exact h0 b' h
  · simp at h
    subst h
    exact hb

/-- The non-empty aliases of a `flag` tag, in order (empty entries of the
comma split are skipped by the registration loop). -/
def cleanedAliases (tag : GoStr) : List GoStr :=
  (goSplitOn ',' tag).filter (fun nm => !nm.isEmpty)

theorem filter_nonempty_cons_nil (rest : List GoStr) :
    (([] : GoStr) :: rest).filter (fun nm => !nm.isEmpty) =
      rest.filter (fun nm => !nm.isEmpty) := by
  simp [List.filter_cons]

theorem filter_nonempty_cons {nm : GoStr} (h : nm ≠ []) (rest : List GoStr) :
    (nm :: rest).filter (fun nm => !nm.isEmpty) =
      nm :: rest.filter (fun nm => !nm.isEmpty) := by
  have he : nm.isEmpty = false := by
    cases nm with
    | nil => exact absurd rfl h
    | cons c cs => rfl
  simp [List.filter_cons, he]

theorem regAliases_char {σ : Type} (fld : FieldDef σ) :
    ∀ (names : List GoStr) (canon : Option GoStr) (fs0 : List (Binding σ))
      (cl0 : List (GoStr × GoStr)),
      (names.filter (fun nm => !nm.isEmpty)).Nodup →
      (∀ nm ∈ names.filter (fun nm => !nm.isEmpty), lookupFlag fs0 nm = none) →
      ∃ cl1, regAliases fld names canon fs0 cl0 =
          .ok (fs0 ++ (names.filter (fun nm => !nm.isEmpty)).map (mkBinding fld), cl1) ∧
        (∀ k, k ∉ names.filter (fun nm => !nm.isEmpty) →
          assocLookup cl1 k = assocLookup cl0 k) ∧
        (∀ nm ∈ names.filter (fun nm => !nm.isEmpty),
          assocLookup cl1 nm =
            some (canon.getD ((names.filter (fun nm => !nm.isEmpty)).headD []))) := by
  intro names
  induction names with
  | nil =>
    intro canon fs0 cl0 _ _
    exact ⟨cl0, by simp [regAliases], by simp, by simp⟩
  | cons nm rest ih =>
    intro canon fs0 cl0 hnodup hfresh
    by_cases hnm : nm = []
    · subst hnm
      rw [filter_nonempty_cons_nil] at hnodup hfresh ⊢
      obtain ⟨cl1, h1, h2, h3⟩ := ih canon fs0 cl0 hnodup hfresh
      refine ⟨cl1, ?_, h2, h3⟩
      unfold regAliases
      rw [if_pos rfl]
      exact h1
    · rw [filter_nonempty_cons hnm] at hnodup hfresh ⊢
      have hnodup' := List.nodup_cons.mp hnodup
      have hfr : lookupFlag fs0 nm = none := hfresh nm (by simp)
      have hfresh' : ∀ nm' ∈ rest.filter (fun nm => !nm.isEmpty),
          lookupFlag (fs0 ++ [mkBinding fld nm]) nm' = none := by
        intro nm' hnm'
        refine lookupFlag_append_none (hfresh nm' (by simp [hnm'])) ?_
        intro he
        have he2 : nm = nm' := he
        exact hnodup'.1 (by rw [he2]; exact hnm')
      obtain ⟨cl1, h1, h2, h3⟩ := ih (some (canon.getD nm)) (fs0 ++ [mkBinding fld nm])
        (assocSet cl0 nm (canon.getD nm)) hnodup'.2 hfresh'
      refine ⟨cl1, ?_, ?_, ?_⟩
      · unfold regAliases
        rw [if_neg hnm]
        dsimp only
        rw [hfr]
        simp only [Option.isSome_none, Bool.false_eq_true, if_false]
        rw [h1]
        simp [List.append_assoc]
      · intro k hk
        simp only [List.mem_cons] at hk
        push_neg at hk
        rw [h2 k hk.2]
        rw [assocLookup_set]
        rw [if_neg (fun he => hk.1 he.symm)]
      · intro nm' hnm'
        simp only [List.mem_cons] at hnm'
        rcases hnm' with hnm' | hnm'
        · subst hnm'
          rw [h2 nm' hnodup'.1]
          rw [assocLookup_set]
          simp
        · have := h3 nm' hnm'
          rw [this]
          simp

/-- C2 (amended): aliases are registered verbatim — no whitespace trimming.
For a field whose alias list (the comma split of its tag with literally-empty
entries dropped) has no duplicates, registration succeeds, registers exactly
those aliases in order and unchanged, and maps every alias to the first
non-empty alias — taken verbatim, not trimmed — as the canonical name. -/
theorem c2_aliases_verbatim {σ : Type} (fld : FieldDef σ)
    (hnodup : (cleanedAliases fld.tag).Nodup) :
    ∃ fs cl, regFields [fld] [] [] = .ok (fs, cl) ∧
      fs = (cleanedAliases fld.tag).map (mkBinding fld) ∧
      (∀ nm ∈ cleanedAliases fld.tag,
        assocLookup cl nm = some ((cleanedAliases fld.tag).headD [])) := by
  obtain ⟨cl1, hreg, _, hcanon⟩ := regAliases_char fld (goSplitOn ',' fld.tag) none [] []
    hnodup (by intro nm _; rfl)
  refine ⟨(cleanedAliases fld.tag).map (mkBinding fld), cl1, ?_, rfl, ?_⟩
  · unfold regFields
    rw [hreg]
    rfl
  · intro nm hnm
    have h := hcanon nm hnm
    rw [h]
    rfl

/-- Witness for c2_aliases_verbatim at the concrete field of the repository's
tests (tag `", sp , spaced "`). -/
theorem c2_aliases_verbatim_witness :
    (cleanedAliases (str (", sp , spaced "))).Nodup ∧
    (∃ fs cl, regFields [stringField (str (", sp , spaced "))
        (fun v (st : C1St) => { st with i := v })] [] [] = .ok (fs, cl) ∧
      fs = (cleanedAliases (str (", sp , spaced "))).map
        (mkBinding (stringField (str (", sp , spaced "))
          (fun v (st : C1St) => { st with i := v }))) ∧
      (∀ nm ∈ cleanedAliases (str (", sp , spaced ")),
        assocLookup cl nm = some ((cleanedAliases (str (", sp , spaced "))).headD []))) :=
  ⟨by decide,
   c2_aliases_verbatim (stringField (str (", sp , spaced "))
     (fun v (st : C1St) => { st with i := v })) (by decide)⟩

/-- Whitespace trimming, written from the spec's words (the claim says each
alias is trimmed of leading and trailing whitespace before registration) —
used only to state what the claim asserts, for comparison with the code. -/
def specTrimSpace (s : GoStr) : GoStr :=
  ((s.dropWhile (fun c => c = ' ' ∨ c = '\t' ∨ c = '\n' ∨ c = '\r')).reverse.dropWhile
    (fun c => c = ' ' ∨ c = '\t' ∨ c = '\n' ∨ c = '\r')).reverse

/-- The registered flag names of a field list (none on a registration panic). -/
def regNames {σ : Type} (fields : List (FieldDef σ)) : Option (List GoStr) :=
  match regFields fields [] [] with
  | .error _ => none
  | .ok p => some (p.1.map Binding.name)

/-- The canonical name recorded for an alias (none on a registration panic). -/
def regCanonOf {σ : Type} (fields : List (FieldDef σ)) (nm : GoStr) : Option GoStr :=
  match regFields fields [] [] with
  | .error _ => none
  | .ok p => assocLookup p.2 nm

/-- C2 counterexample: for the tag `" sp ,x"`, the code registers the alias
`" sp "` verbatim (spaces kept) and records it — not the trimmed `"sp"` — as
the canonical name of the alias `x`; trimming, as the claim describes it,
would have produced `"sp"`, which differs. -/
theorem c2_counterexample :
    regNames [stringField (str (" sp ,x")) (fun v (st : C1St) => { st with i := v })] =
      some [str (" sp "), str ("x")] ∧
    regCanonOf [stringField (str (" sp ,x")) (fun v (st : C1St) => { st with i := v })]
      (str ("x")) = some (str (" sp ")) ∧
    specTrimSpace (str (" sp ")) = str ("sp") ∧
    str (" sp ") ≠ specTrimSpace (str (" sp ")) := by
  refine ⟨rfl, rfl, by decide, by decide⟩

/-! ## Repeatable and scalar flags (C4) -/

/-- `n` successive bumps of the same counter key. -/
def bumpIter (m : List (GoStr × Nat)) (k : GoStr) : Nat → List (GoStr × Nat)
  | 0 => m
  | n + 1 => bumpIter (bumpCount m k) k n

theorem bumpIter_pair (k : GoStr) : ∀ (n c : Nat), bumpIter [(k, c)] k n = [(k, c + n)] := by
  intro n
  induction n with
  | zero => intro c; rfl
  | succ n ih =>
    intro c
    show bumpIter (bumpCount [(k, c)] k) k n = [(k, c + (n + 1))]
    have hbc : bumpCount [(k, c)] k = [(k, c + 1)] := by
      simp [bumpCount, assocLookup, assocSet]
    rw [hbc, ih]
    have hadd : c + 1 + n = c + (n + 1) := by omega
    rw [hadd]

theorem bumpIter_nil (k : GoStr) (n : Nat) :
    bumpIter [] k n = if n = 0 then ([] : List (GoStr × Nat)) else [(k, n)] := by
  cases n with
  | zero => rfl
  | succ n =>
    show bumpIter (bumpCount [] k) k n = _
    have h1 : bumpCount [] k = [(k, 1)] := rfl
    rw [h1, bumpIter_pair]
    simp [Nat.add_comm]

theorem insertUniq_ne_nil (l : List GoStr) (x : GoStr) : insertUniq l x ≠ [] := by
  unfold insertUniq
  by_cases h : x ∈ l
  · simp only [if_pos h]
    exact List.ne_nil_of_mem h
  · simp only [if_neg h]
    simp

theorem foldl_insert_mem {cl : List (GoStr × GoStr)} {k : GoStr} :
    ∀ (actual acc : List GoStr), (∀ x ∈ actual, canonOf cl x = k) → k ∈ acc →
      actual.foldl (fun a nm => insertUniq a (canonOf cl nm)) acc = acc := by
  intro actual
  induction actual with
  | nil => intro acc _ _; rfl
  | cons x rest ih =>
    intro acc hall hk
    simp only [List.foldl_cons]
    rw [hall x (by simp)]
    rw [show insertUniq acc k = acc from by simp [insertUniq, hk]]
    exact ih acc (fun y hy => hall y (by simp [hy])) hk

theorem flagSetOf_const {cl : List (GoStr × GoStr)} {k : GoStr} :
    ∀ (actual : List GoStr), (∀ x ∈ actual, canonOf cl x = k) → actual ≠ [] →
      flagSetOf cl actual = [k] := by
  intro actual hall hne
  cases actual with
  | nil => exact absurd rfl hne
  | cons x rest =>
    unfold flagSetOf
    simp only [List.foldl_cons]
    rw [hall x (by simp)]
    rw [show insertUniq [] k = [k] from rfl]
    exact foldl_insert_mem rest [k] (fun y hy => hall y (by simp [hy])) (by simp)

/-- Occurrences of the repeatable flag, each under one of its two aliases. -/
def c4SliceArgs : List (Bool × GoStr) → List GoStr
  | [] => []
  | (useAlt, v) :: rest =>
    (if useAlt then str ("-tee") else str ("-t")) :: v :: c4SliceArgs rest

/-- Occurrences of the scalar flag, each under one of its two aliases. -/
def c4ScalarArgs : List (Bool × GoStr) → List GoStr
  | [] => []
  | (useAlt, v) :: rest =>
    (if useAlt then str ("-string") else str ("-s")) :: v :: c4ScalarArgs rest

theorem c4_slice_run : ∀ (occs : List (Bool × GoStr)) (st : FsState C4St),
    st.args = c4SliceArgs occs →
    ∃ a' : List GoStr,
      fsParse c4fs true c4cl st = .done
        { args := [], strct := { s := st.strct.s, t := st.strct.t ++ occs.map Prod.snd },
          counts := bumpIter st.counts (str ("t")) occs.length, actual := a' } ∧
      (∀ x ∈ a', x ∈ st.actual ∨ x = str ("t") ∨ x = str ("tee")) ∧
      (occs = [] → a' = st.actual) ∧
      (occs ≠ [] → a' ≠ []) := by
  intro occs
  induction occs with
  | nil =>
    intro st hargs
    obtain ⟨sargs, ⟨ss, st2⟩, scounts, sactual⟩ := st
    dsimp at hargs ⊢
    subst hargs
    exact ⟨sactual, by simp [bumpIter, c4SliceArgs]; rfl, fun x hx => Or.inl hx,
      fun _ => rfl, fun h => absurd rfl h⟩
  | cons occ occs ih =>
    intro st hargs
    obtain ⟨alt, v⟩ := occ
    cases alt with
    | false =>
      have hstep := parseOne_flag_val c4fs true c4cl
        (str ("-")) (Or.inl rfl) (c := 't') ([]) (by decide) (by decide)
        (by decide)
        (b := ⟨str ("t"), fun v st => some { st with t := st.t ++ [v] }, false⟩) rfl rfl
        (v := v) (c4SliceArgs occs) st (by rw [hargs]; rfl)
        ({ st.strct with t := st.strct.t ++ [v] }) rfl
      rw [fsParse_eq, hstep]
      show ∃ a', fsParse c4fs true c4cl
          { args := c4SliceArgs occs,
            strct := { s := st.strct.s, t := st.strct.t ++ [v] },
            counts := bumpCount st.counts (str ("t")),
            actual := insertUniq st.actual (str ("t")) } = _ ∧ _
      obtain ⟨a', hdone, hmem, hnil, hne⟩ := ih
        { args := c4SliceArgs occs,
          strct := { s := st.strct.s, t := st.strct.t ++ [v] },
          counts := bumpCount st.counts (str ("t")),
          actual := insertUniq st.actual (str ("t")) } rfl
      refine ⟨a', ?_, ?_, fun h => absurd h (by simp), fun _ => ?_⟩
      · rw [hdone]
        simp [List.append_assoc]
        rfl
      · intro x hx
        rcases hmem x hx with hx2 | hx2 | hx2
        · dsimp at hx2
          rcases insertUniq_mem.mp hx2 with hx3 | hx3
          · exact Or.inl hx3
          · exact Or.inr (Or.inl hx3)
        · exact Or.inr (Or.inl hx2)
        · exact Or.inr (Or.inr hx2)
      · by_cases hocc : occs = []
        · rw [hnil hocc]
          exact insertUniq_ne_nil _ _
        · exact hne hocc
    | true =>
      have hstep := parseOne_flag_val c4fs true c4cl
        (str ("-")) (Or.inl rfl) (c := 't') (['e', 'e']) (by decide) (by decide)
        (by decide)
        (b := ⟨str ("tee"), fun v st => some { st with t := st.t ++ [v] }, false⟩) rfl rfl
        (v := v) (c4SliceArgs occs) st (by rw [hargs]; rfl)
        ({ st.strct with t := st.strct.t ++ [v] }) rfl
      rw [fsParse_eq, hstep]
      show ∃ a', fsParse c4fs true c4cl
          { args := c4SliceArgs occs,
            strct := { s := st.strct.s, t := st.strct.t ++ [v] },
            counts := bumpCount st.counts (str ("t")),
            actual := insertUniq st.actual (str ("tee")) } = _ ∧ _
      obtain ⟨a', hdone, hmem, hnil, hne⟩ := ih
        { args := c4SliceArgs occs,
          strct := { s := st.strct.s, t := st.strct.t ++ [v] },
          counts := bumpCount st.counts (str ("t")),
          actual := insertUniq st.actual (str ("tee")) } rfl
      refine ⟨a', ?_, ?_, fun h => absurd h (by simp), fun _ => ?_⟩
      · rw [hdone]
        simp [List.append_assoc]
        rfl
      · intro x hx
        rcases hmem x hx with hx2 | hx2 | hx2
        · dsimp at hx2
          rcases insertUniq_mem.mp hx2 with hx3 | hx3
          · exact Or.inl hx3
          · exact Or.inr (Or.inr hx3)
        · exact Or.inr (Or.inl hx2)
        · exact Or.inr (Or.inr hx2)
      · by_cases hocc : occs = []
        · rw [hnil hocc]
          exact insertUniq_ne_nil _ _
        · exact hne hocc

theorem c4_scalar_run : ∀ (occs : List (Bool × GoStr)) (st : FsState C4St),
    st.args = c4ScalarArgs occs →
    ∃ a' : List GoStr,
      fsParse c4fs true c4cl st = .done
        { args := [], strct := { s := (occs.map Prod.snd).getLastD st.strct.s, t := st.strct.t },
          counts := bumpIter st.counts (str ("s")) occs.length, actual := a' } ∧
      (∀ x ∈ a', x ∈ st.actual ∨ x = str ("s") ∨ x = str ("string")) ∧
      (occs = [] → a' = st.actual) ∧
      (occs ≠ [] → a' ≠ []) := by
  intro occs
  induction occs with
  | nil =>
    intro st hargs
    obtain ⟨sargs, ⟨ss, st2⟩, scounts, sactual⟩ := st
    dsimp at hargs ⊢
    subst hargs
    exact ⟨sactual, by simp [bumpIter, c4ScalarArgs]; rfl, fun x hx => Or.inl hx,
      fun _ => rfl, fun h => absurd rfl h⟩
  | cons occ occs ih =>
    intro st hargs
    obtain ⟨alt, v⟩ := occ
    cases alt with
    | false =>
      have hstep := parseOne_flag_val c4fs true c4cl
        (str ("-")) (Or.inl rfl) (c := 's') ([]) (by decide) (by decide)
        (by decide)
        (b := ⟨str ("s"), fun v st => some { st with s := v }, false⟩) rfl rfl
        (v := v) (c4ScalarArgs occs) st (by rw [hargs]; rfl)
        ({ st.strct with s := v }) rfl
      rw [fsParse_eq, hstep]
      show ∃ a', fsParse c4fs true c4cl
          { args := c4ScalarArgs occs,
            strct := { s := v, t := st.strct.t },
            counts := bumpCount st.counts (str ("s")),
            actual := insertUniq st.actual (str ("s")) } = _ ∧ _
      obtain ⟨a', hdone, hmem, hnil, hne⟩ := ih
        { args := c4ScalarArgs occs,
          strct := { s := v, t := st.strct.t },
          counts := bumpCount st.counts (str ("s")),
          actual := insertUniq st.actual (str ("s")) } rfl
      refine ⟨a', ?_, ?_, fun h => absurd h (by simp), fun _ => ?_⟩
      · simp only [List.map_cons, List.getLastD_cons, List.length_cons]
        rw [hdone]
        rfl
      · intro x hx
        rcases hmem x hx with hx2 | hx2 | hx2
        · dsimp at hx2
          rcases insertUniq_mem.mp hx2 with hx3 | hx3
          · exact Or.inl hx3
          · exact Or.inr (Or.inl hx3)
        · exact Or.inr (Or.inl hx2)
        · exact Or.inr (Or.inr hx2)
      · by_cases hocc : occs = []
        · rw [hnil hocc]
          exact insertUniq_ne_nil _ _
        · exact hne hocc
    | true =>
      have hstep := parseOne_flag_val c4fs true c4cl
        (str ("-")) (Or.inl rfl) (c := 's') (['t', 'r', 'i', 'n', 'g'])
        (by decide) (by decide) (by decide)
        (b := ⟨str ("string"), fun v st => some { st with s := v }, false⟩) rfl rfl
        (v := v) (c4ScalarArgs occs) st (by rw [hargs]; rfl)
        ({ st.strct with s := v }) rfl
      rw [fsParse_eq, hstep]
      show ∃ a', fsParse c4fs true c4cl
          { args := c4ScalarArgs occs,
            strct := { s := v, t := st.strct.t },
            counts := bumpCount st.counts (str ("s")),
            actual := insertUniq st.actual (str ("string")) } = _ ∧ _
      obtain ⟨a', hdone, hmem, hnil, hne⟩ := ih
        { args := c4ScalarArgs occs,
          strct := { s := v, t := st.strct.t },
          counts := bumpCount st.counts (str ("s")),
          actual := insertUniq st.actual (str ("string")) } rfl
      refine ⟨a', ?_, ?_, fun h => absurd h (by simp), fun _ => ?_⟩
      · simp only [List.map_cons, List.getLastD_cons, List.length_cons]
        rw [hdone]
        rfl
      · intro x hx
        rcases hmem x hx with hx2 | hx2 | hx2
        · dsimp at hx2
          rcases insertUniq_mem.mp hx2 with hx3 | hx3
          · exact Or.inl hx3
          · exact Or.inr (Or.inr hx3)
        · exact Or.inr (Or.inl hx2)
        · exact Or.inr (Or.inr hx2)
      · by_cases hocc : occs = []
        · rw [hnil hocc]
          exact insertUniq_ne_nil _ _
        · exact hne hocc

/-- C4: re-supplying the scalar flag (under any mix of its aliases `s` and
`string`) overwrites, so the last value wins; N occurrences of the repeatable
flag (under any mix of `t` and `tee`) append exactly N elements in
command-line order, and the occurrence count delivered via SetFlagsCount is N
under the canonical name, while the flag set holds only the canonical name. -/
theorem c4_repeat_semantics (occs : List (Bool × GoStr)) (st0 : C4St) :
    (parseFlags c4Fields true (str ("prog") :: c4SliceArgs occs) st0 =
      .ok { strct := { s := st0.s, t := st0.t ++ occs.map Prod.snd },
            nonFlags := some [],
            flagSet := if occs.isEmpty then none else some [str ("t")],
            counts := if occs.isEmpty then none else some [(str ("t"), occs.length)] }) ∧
    (parseFlags c4Fields true (str ("prog") :: c4ScalarArgs occs) st0 =
      .ok { strct := { s := (occs.map Prod.snd).getLastD st0.s, t := st0.t },
            nonFlags := some [],
            flagSet := if occs.isEmpty then none else some [str ("s")],
            counts := if occs.isEmpty then none else some [(str ("s"), occs.length)] }) := by
  constructor
  · obtain ⟨a', hdone, hmem, hnil, hne⟩ := c4_slice_run occs
      { args := c4SliceArgs occs, strct := st0, counts := [], actual := [] } rfl
    rw [parseFlags_of_run c4reg hdone rfl (str ("prog"))]
    dsimp only
    by_cases hocc : occs = []
    · subst hocc
      have ha := hnil rfl
      dsimp only at ha
      rw [ha]
      simp [bumpIter]
    · have ha : a' ≠ [] := hne hocc
      have hfso : flagSetOf c4cl a' = [str ("t")] := by
        refine flagSetOf_const a' ?_ ha
        intro x hx
        rcases hmem x hx with hx2 | hx2 | hx2
        · simp at hx2
        · rw [hx2]; rfl
        · rw [hx2]; rfl
      have hlen : occs.length ≠ 0 := by
        cases occs with
        | nil => exact absurd rfl hocc
        | cons o os => simp
      have hocc2 : occs.isEmpty = false := by
        cases occs with
        | nil => exact absurd rfl hocc
        | cons o os => rfl
      rw [if_neg ha, hfso, bumpIter_nil, if_neg hlen, hocc2]
      simp
  · obtain ⟨a', hdone, hmem, hnil, hne⟩ := c4_scalar_run occs
      { args := c4ScalarArgs occs, strct := st0, counts := [], actual := [] } rfl
    rw [parseFlags_of_run c4reg hdone rfl (str ("prog"))]
    dsimp only
    by_cases hocc : occs = []
    · subst hocc
      have ha := hnil rfl
      dsimp only at ha
      rw [ha]
      simp [bumpIter]
    · have ha : a' ≠ [] := hne hocc
      have hfso : flagSetOf c4cl a' = [str ("s")] := by
        refine flagSetOf_const a' ?_ ha
        intro x hx
        rcases hmem x hx with hx2 | hx2 | hx2
        · simp at hx2
        · rw [hx2]; rfl
        · rw [hx2]; rfl
      have hlen : occs.length ≠ 0 := by
        cases occs with
        | nil => exact absurd rfl hocc
        | cons o os => simp
      have hocc2 : occs.isEmpty = false := by
        cases occs with
        | nil => exact absurd rfl hocc
        | cons o os => rfl
      rw [if_neg ha, hfso, bumpIter_nil, if_neg hlen, hocc2]
      simp

/-- C3: (A) for every target structure, binding list and argument vector, a
successful parse delivers SetFlags and SetFlagsCount maps keyed by canonical
names only — every key maps to itself through the canonical lookup, no matter
which alias was typed; (B) for an argument vector consisting purely of
recognized flags and their values, the positional list delivered via SetArgs
is empty and the SetFlags set contains exactly the canonical names of the
flags present. -/
theorem c3_canonical_reports :
    (∀ {σ : Type} (fields : List (FieldDef σ)) (counting : Bool)
       (fs : List (Binding σ)) (cl : List (GoStr × GoStr))
       (args : List GoStr) (st0 : σ) (r : ParseResult σ),
       regFields fields [] [] = .ok (fs, cl) →
       parseFlags fields counting args st0 = .ok r →
       (∀ l, r.flagSet = some l → ∀ k ∈ l, assocLookup cl k = some k) ∧
       (∀ cnts, r.counts = some cnts → ∀ kv ∈ cnts, assocLookup cl kv.1 = some kv.1)) ∧
    (∀ {σ : Type} (fields : List (FieldDef σ)) (counting : Bool)
       (fs : List (Binding σ)) (cl : List (GoStr × GoStr))
       (args names : List GoStr) (a0 : GoStr) (st0 : σ),
       regFields fields [] [] = .ok (fs, cl) →
       PureRun fs args names →
       ∃ r, parseFlags fields counting (a0 :: args) st0 = .ok r ∧
         r.nonFlags = some [] ∧
         (∀ k, (∃ l, r.flagSet = some l ∧ k ∈ l) ↔ ∃ nm ∈ names, canonOf cl nm = k)) := by
  constructor
  · intro σ fields counting fs cl args st0 r hreg hparse
    cases args with
    | nil =>
      unfold parseFlags at hparse
      injection hparse with h
      subst h
      exact ⟨by simp, by simp⟩
    | cons a0 rest =>
      rw [parseFlags_step hreg] at hparse
      have hok := regFields_canonOK fields [] [] canonOK_empty hreg
      have htr0 : Tracked fs cl
          { args := rest, strct := st0, counts := [], actual := ([] : List GoStr) } :=
        ⟨by simp, by simp⟩
      have htr := scanLoop_tracked counting hok ([] : List GoStr) htr0
      cases hscan : scanLoop fs counting cl
          { args := rest, strct := st0, counts := [], actual := [] } [] with
      | err st' m =>
        rw [hscan] at hparse
        simp at hparse
      | ok st' nonFlags =>
        rw [hscan] at hparse
        rw [hscan] at htr
        dsimp only [ScanOut.state] at htr
        injection hparse with h
        subst h
        constructor
        · intro l hl k hk
          dsimp only at hl
          by_cases hact : st'.actual = []
          · rw [if_pos hact] at hl
            simp at hl
          · rw [if_neg hact] at hl
            injection hl with hl
            subst hl
            obtain ⟨nm, hnm, hcan⟩ := flagSetOf_mem.mp hk
            obtain ⟨b, hbmem, hbname⟩ := htr.1 nm hnm
            rw [← hcan, ← hbname]
            exact canonOf_self hok hbmem
        · intro cnts hc kv hkv
          dsimp only at hc
          by_cases hcn : st'.counts = []
          · rw [if_pos hcn] at hc
            simp at hc
          · rw [if_neg hcn] at hc
            injection hc with hc
            subst hc
            exact htr.2 kv hkv
  · intro σ fields counting fs cl args names a0 st0 hreg hpure
    obtain ⟨stMid, hm1, hm2, hm3, _⟩ := pureRun_split counting cl hpure []
      { args := args, strct := st0, counts := [], actual := [] } (by simp)
    have hm1' : fsParse fs counting cl
        { args := args, strct := st0, counts := [], actual := [] } = .done stMid := hm1
    refine ⟨_, parseFlags_of_run hreg hm1' hm2 a0, rfl, ?_⟩
    intro k
    dsimp only
    by_cases hact : stMid.actual = []
    · rw [if_pos hact]
      constructor
      · rintro ⟨l, hl, _⟩
        cases hl
      · rintro ⟨nm, hnm, _⟩
        have hh := (hm3 nm).mpr (Or.inr hnm)
        rw [hact] at hh
        simp at hh
    · rw [if_neg hact]
      constructor
      · rintro ⟨l, hl, hk⟩
        injection hl with hl
        subst hl
        obtain ⟨nm, hnm, hcan⟩ := flagSetOf_mem.mp hk
        rcases (hm3 nm).mp hnm with h | h
        · simp at h
        · exact ⟨nm, h, hcan⟩
      · rintro ⟨nm, hnm, hcan⟩
        exact ⟨flagSetOf cl stMid.actual, rfl,
          flagSetOf_mem.mpr ⟨nm, (hm3 nm).mpr (Or.inr hnm), hcan⟩⟩

/-- The binding registered for the alias `s` of the scalar field. -/
def c4SBinding : Binding C4St :=
  { name := str ("s"), set := fun v st => some { st with s := v }, isBool := false }

theorem c4SBinding_lookup : lookupFlag c4fs ['s'] = some c4SBinding := rfl

/-- Witness for c3_canonical_reports: a pure-flag vector `-s a` on the
two-field structure delivers an empty positional list and a flag set holding
exactly the canonical name `s`. -/
theorem c3_canonical_reports_witness :
    ∃ r, parseFlags c4Fields true [str ("prog"), str ("-s"), str ("a")]
        ({ s := [], t := [] } : C4St) = .ok r ∧
      r.nonFlags = some [] ∧
      (∀ k, (∃ l, r.flagSet = some l ∧ k ∈ l) ↔
        ∃ nm ∈ [str ("s")], canonOf c4cl nm = k) :=
  c3_canonical_reports.2 c4Fields true c4fs c4cl [str ("-s"), str ("a")]
    [str ("s")] (str ("prog")) { s := [], t := [] } c4reg
    (show PureRun c4fs [str ("-s"), str ("a")] [str ("s")] from
      PureRun.valFlag (str ("-")) 's' [] (str ("a")) c4SBinding [] []
        (Or.inl rfl) (by decide) (by decide) (by decide) c4SBinding_lookup rfl
        (fun s => rfl) PureRun.nil)

/-- C10: parse errors do not roll back earlier flag assignments.  (i) If the
argument vector is a pure run of recognized flags followed by a failing
suffix, `parseFlags` returns the scan error and the target structure's final
state is exactly the state produced by applying the whole pure prefix (and
whatever the failing suffix managed before erroring) — nothing is undone.
(ii) A single erroring `parseOne` step leaves the structure untouched, so when
the failing token is the first flag processed the structure is unmodified. -/
theorem c10_no_rollback :
    (∀ {σ : Type} (fields : List (FieldDef σ)) (counting : Bool)
       (fs : List (Binding σ)) (cl : List (GoStr × GoStr))
       (args1 names args2 : List GoStr) (a0 : GoStr) (st0 : σ)
       (stMid st2 : FsState σ) (m : GoStr),
       regFields fields [] [] = .ok (fs, cl) →
       PureRun fs args1 names →
       fsParse fs counting cl
         { args := args1, strct := st0, counts := [], actual := [] } = .done stMid →
       fsParse fs counting cl
         { args := args2, strct := stMid.strct, counts := stMid.counts,
           actual := stMid.actual } = .fail st2 (.emsg m) →
       args2 ≠ [] →
       parseFlags fields counting (a0 :: (args1 ++ args2)) st0 = .err st2.strct m) ∧
    (∀ {σ : Type} (fs : List (Binding σ)) (counting : Bool) (cl : List (GoStr × GoStr))
       (st st' : FsState σ) (e : FsErr),
       parseOne fs counting cl st = .err st' e → st'.strct = st.strct) := by
  constructor
  · intro σ fields counting fs cl args1 names args2 a0 st0 stMid st2 m
      hreg hpure hmid hfail hne2
    obtain ⟨stMid', hm1, _, _, hm4⟩ := pureRun_split counting cl hpure args2
      { args := args1 ++ args2, strct := st0, counts := [], actual := [] } rfl
    have hmeq : stMid' = stMid := by
      have h12 : FsOut.done stMid' = FsOut.done stMid := hm1.symm.trans hmid
      injection h12
    subst hmeq
    have hfull : fsParse fs counting cl
        { args := args1 ++ args2, strct := st0, counts := [], actual := [] } =
        .fail st2 (.emsg m) := hm4.trans hfail
    rw [parseFlags_step hreg]
    rw [scanLoop_emsg fs counting cl []
      (by
        intro h
        exact hne2 (List.append_eq_nil.mp h).2) hfull]
  · intro σ fs counting cl st st' e h
    exact parseOne_err_strct h

/-- Witness for c10_no_rollback: `-s a -z` errors on `-z`, yet the scalar
field keeps the value `"a"` written by the preceding `-s a`. -/
theorem c10_no_rollback_witness :
    parseFlags c4Fields true
        [str ("prog"), str ("-s"), str ("a"), str ("-z")] ({ s := [], t := [] } : C4St) =
      .err ({ s := str ("a"), t := [] } : C4St)
        (str ("flag provided but not defined: -z")) :=
  c10_no_rollback.1 c4Fields true c4fs c4cl [str ("-s"), str ("a")] [str ("s")]
    [str ("-z")] (str ("prog")) { s := [], t := [] }
    ⟨[], { s := str ("a"), t := [] }, [(str ("s"), 1)], [str ("s")]⟩
    ⟨[], { s := str ("a"), t := [] }, [(str ("s"), 1)], [str ("s")]⟩
    (str ("flag provided but not defined: -z"))
    c4reg
    (show PureRun c4fs [str ("-s"), str ("a")] [str ("s")] from
      PureRun.valFlag (str ("-")) 's' [] (str ("a")) c4SBinding [] []
        (Or.inl rfl) (by decide) (by decide) (by decide) c4SBinding_lookup rfl
        (fun s => rfl) PureRun.nil)
    rfl rfl (by decide)
